import Mathlib

set_option maxRecDepth 8000

namespace Aiida

/-- Error taxonomy used by `aiida/orm/oldnode.py` (from `aiida.common.exceptions`,
whose members are named in the import at the top of the file and raised throughout). -/
inductive AErr where
  | modificationNotAllowed
  | validationError
  | uniquenessError
  | attributeError
  | valueError
  | storingNotAllowed
  | notExistent
  | internalError
deriving DecidableEq, Repr

/-- Link types of `aiida.common.links.LinkType` as used in `oldnode.py` and the tests:
INPUT, CREATE, CALL, RETURN (`ret` here, since `return` is reserved). -/
inductive LinkType where
  | input
  | create
  | call
  | ret
deriving DecidableEq, Repr

/-- Modelled from the spec: `validate_link` and the deletion traversal distinguish
"provenance-tracking" link types; INPUT and CREATE track data provenance and must stay
acyclic, while CALL and RETURN may close loops (the test
`test_deletion_with_returns_n_loops` builds an INPUT/RETURN loop that is accepted). -/
def LinkType.isProvenance : LinkType → Bool
  | .input => true
  | .create => true
  | .call => false
  | .ret => false

/-- Scalar fragment of the JSON-serializable values stored in node attributes and extras.
Structured (list) values are treated separately by the heap model used for
`_append_to_attr`, where Python object identity matters. -/
inductive AttrValue where
  | int (n : Int)
  | str (s : String)
  | boolean (b : Bool)
  | null
deriving DecidableEq, Repr

/-- Lookup in an insertion-ordered association list (a Python `dict`). -/
def lookup_assoc {α : Type} (l : List (String × α)) (k : String) : Option α :=
  match l with
  | [] => none
  | (k', v) :: tl => if k' = k then some v else lookup_assoc tl k

/-- Update in an insertion-ordered association list: replace the value at the first
occurrence of the key (keeping its position, as a Python `dict` does) or append. -/
def update_assoc {α : Type} (l : List (String × α)) (k : String) (v : α) :
    List (String × α) :=
  match l with
  | [] => [(k, v)]
  | (k', v') :: tl => if k' = k then (k', v) :: tl else (k', v') :: update_assoc tl k v

/-- Remove the first occurrence of a key from an association list (Python `del d[k]`). -/
def erase_assoc {α : Type} (l : List (String × α)) (k : String) : List (String × α) :=
  match l with
  | [] => []
  | (k', v') :: tl => if k' = k then tl else (k', v') :: erase_assoc tl k

/-- Key membership in an association list (Python `k in d`). -/
def contains_key {α : Type} (l : List (String × α)) (k : String) : Bool :=
  match l with
  | [] => false
  | (k', _) :: tl => k' = k || contains_key tl k

/-- Modelled from the spec: `validate_attribute_key` (imported in `oldnode.py` from
`aiida.backends.utils`, not under src/) rejects keys containing the reserved separator
character, which in AiiDA is the dot. -/
def validate_attribute_key (k : String) : Bool :=
  !(k.data.contains '.')

/-- Modelled from the spec: `clean_value` (not under src/) recursively converts a value
to its canonical JSON-safe representation and unwraps boxed scalars. On the scalar
value universe used here every value is already canonical, so cleaning returns the
value unchanged. (Its copying behaviour on mutable lists is modelled separately in
the heap model for `_append_to_attr`.) -/
def clean_value (v : AttrValue) : AttrValue := v

/-- State of a single node as seen by the attribute/extras methods of `AbstractNode`:
the `_to_be_stored` flag, the pre-store attribute cache `_attrs_cache`, and the durable
attribute and extras tables that the abstract `_get_db_attr` / `_set_db_attr` /
`_get_db_extra` / `_db_iterextras` backend methods read and write. The class-level
tuples `_updatable_attributes` and `_hash_ignored_attributes` and the data hashed
besides the attributes (repository folder walk, computer uuid) are carried as fields. -/
structure AttrNode where
  toBeStored : Bool
  attrsCache : List (String × AttrValue)
  dbAttrs : List (String × AttrValue)
  dbExtras : List (String × AttrValue)
  updatableAttributes : List String
  hashIgnoredAttributes : List String
  folderContents : List (String × String)
  computerUuid : Option String
deriving DecidableEq, Repr

/-- `AbstractNode.is_stored`: `not self._to_be_stored`. -/
def is_stored (n : AttrNode) : Bool := !n.toBeStored

/-- `AbstractNode._set_attr(key, value, clean=True, stored_check=True)`: raises
`ModificationNotAllowed` when the stored check is enabled and the node is stored,
validates the key, then writes to the cache (unstored) or, via `_set_db_attr`
(a backend method, modelled as a direct write to the durable table), to the DB. -/
def set_attr (n : AttrNode) (key : String) (v : AttrValue) (clean stored_check : Bool) :
    Except AErr AttrNode :=
  if stored_check && is_stored n then .error .modificationNotAllowed
  else if !(validate_attribute_key key) then .error .validationError
  else if n.toBeStored then
    .ok { n with attrsCache := update_assoc n.attrsCache key
                    (if clean then clean_value v else v) }
  else
    .ok { n with dbAttrs := update_assoc n.dbAttrs key (clean_value v) }

/-- `AbstractNode._del_attr(key, stored_check=True)`: raises `ModificationNotAllowed`
when the stored check is enabled and the node is stored; deletes from the cache
(raising `AttributeError` when absent) or, via the backend `_del_db_attr` (modelled as
a direct delete on the durable table, failing the same way when absent). -/
def del_attr (n : AttrNode) (key : String) (stored_check : Bool) : Except AErr AttrNode :=
  if stored_check && is_stored n then .error .modificationNotAllowed
  else if n.toBeStored then
    if contains_key n.attrsCache key then .ok { n with attrsCache := erase_assoc n.attrsCache key }
    else .error .attributeError
  else
    if contains_key n.dbAttrs key then .ok { n with dbAttrs := erase_assoc n.dbAttrs key }
    else .error .attributeError

/-- `AbstractNode.get_attr(key, default)`: reads the cache when unstored, the durable
table otherwise; `AttributeError` when absent and no default was given. -/
def get_attr (n : AttrNode) (key : String) (deflt : Option AttrValue) :
    Except AErr AttrValue :=
  match (if n.toBeStored then lookup_assoc n.attrsCache key else lookup_assoc n.dbAttrs key) with
  | some v => .ok v
  | none =>
    match deflt with
    | some d => .ok d
    | none => .error .attributeError

/-- `AbstractNode.get_attrs()` / `iterattrs`: the full attribute mapping, from the cache
when unstored and from the durable table otherwise. -/
def get_attrs (n : AttrNode) : List (String × AttrValue) :=
  if n.toBeStored then n.attrsCache else n.dbAttrs

/-- `AbstractNode.iterextras()`: an unstored node yields nothing (the generator returns
immediately, never touching the DB); a stored node iterates the durable extras. -/
def iterextras (n : AttrNode) : List (String × AttrValue) :=
  if n.toBeStored then [] else n.dbExtras

/-- `AbstractNode.get_extras()`: `dict(self.iterextras())`. -/
def get_extras (n : AttrNode) : List (String × AttrValue) :=
  iterextras n

/-- `AbstractNode.get_extra(key, *args)` with at most one positional default:
inside the `try` block an unstored node raises `AttributeError` without touching the
DB, a stored node reads `_get_db_extra` (which raises `AttributeError` when the key is
absent); the `except AttributeError` handler returns the default when one was given
and re-raises otherwise. -/
def get_extra (n : AttrNode) (key : String) (deflt : Option AttrValue) :
    Except AErr AttrValue :=
  let attempt : Except AErr AttrValue :=
    if !(is_stored n) then .error .attributeError
    else
      match lookup_assoc n.dbExtras key with
      | some v => .ok v
      | none => .error .attributeError
  match attempt with
  | .error .attributeError =>
    match deflt with
    | some d => .ok d
    | none => .error .attributeError
  | r => r

/-- The ordered composite hashed by `AbstractNode.get_hash`, as assembled by
`_get_objects_to_hash`: the package version, the attribute mapping with the
`_hash_ignored_attributes` and `_updatable_attributes` keys removed, the repository
folder, and the computer uuid or a null marker. -/
structure HashObjects where
  version : String
  hashedAttrs : List (String × AttrValue)
  folderContents : List (String × String)
  computerUuid : Option String
deriving DecidableEq, Repr

/-- Version marker standing for `importlib.import_module(...).__version__`. -/
def aiidaVersion : String := "1.0.0b1"

/-- `AbstractNode._get_objects_to_hash()`: filters the attribute mapping, keeping only
keys that are in neither `_hash_ignored_attributes` nor `_updatable_attributes`. -/
def get_objects_to_hash (n : AttrNode) : HashObjects :=
  { version := aiidaVersion
    hashedAttrs := (get_attrs n).filter
      (fun kv => !(n.hashIgnoredAttributes.contains kv.1)
              && !(n.updatableAttributes.contains kv.1))
    folderContents := n.folderContents
    computerUuid := n.computerUuid }

/-- `AbstractNode.get_hash(ignore_errors=True)`: `make_hash` lives outside src/, so it
is abstracted as an arbitrary digest function on the hashed objects; a `none` result
stands for a swallowed hashing failure. -/
def get_hash (makeHash : HashObjects → Option Nat) (n : AttrNode) : Option Nat :=
  makeHash (get_objects_to_hash n)

instance {α β : Type} [DecidableEq α] [DecidableEq β] : DecidableEq (Except α β) :=
  fun a b =>
    match a, b with
    | .ok x, .ok y => decidable_of_iff (x = y) (by simp)
    | .error x, .error y => decidable_of_iff (x = y) (by simp)
    | .ok _, .error _ => isFalse (fun h => Except.noConfusion h)
    | .error _, .ok _ => isFalse (fun h => Except.noConfusion h)

/-- A durable directed link: source node, target node, link type and label. -/
structure DbLink where
  source : Nat
  target : Nat
  linkType : LinkType
  linkLabel : String
deriving DecidableEq, Repr

/-- The durable graph consumed by node deletion: stored node identifiers and their
stored links (deletion reads durable storage only, never caches). -/
structure DGraph where
  nodes : List Nat
  edges : List DbLink
deriving DecidableEq, Repr

/-- Modelled from the spec: one expansion step of the deletion traversal of
`aiida.utils.delete_nodes` (imported by the tests; its module is not under src/).
From a node about to be deleted, CREATE and INPUT links are always followed forward
to their targets, CALL links only when `follow_calls`, RETURN links only when
`follow_returns`; links are never followed backward. -/
def deletion_step (g : DGraph) (follow_calls follow_returns : Bool) (u : Nat) : List Nat :=
  (g.edges.filter (fun e => e.source == u &&
      (e.linkType == .create || e.linkType == .input ||
        (follow_calls && e.linkType == .call) ||
        (follow_returns && e.linkType == .ret)))).map (fun e => e.target)

/-- Modelled from the spec: breadth-first closure expansion from the roots with a
visited set (mandatory for cycle safety). The recursion is fuelled to make
termination structural; `deletion_closure` supplies ample fuel. -/
def deletion_closure_aux (g : DGraph) (fc fr : Bool) :
    Nat → List Nat → List Nat → List Nat
  | 0, visited, _ => visited
  | _ + 1, visited, [] => visited
  | fuel + 1, visited, u :: frontier =>
    if visited.contains u then deletion_closure_aux g fc fr fuel visited frontier
    else deletion_closure_aux g fc fr fuel (visited ++ [u])
      (frontier ++ deletion_step g fc fr u)

/-- Modelled from the spec: the full set of nodes removed by `delete_nodes` for the
given roots and follow policies. -/
def deletion_closure (g : DGraph) (roots : List Nat) (fc fr : Bool) : List Nat :=
  deletion_closure_aux g fc fr
    ((g.nodes.length + roots.length + 1) * (g.edges.length + 1) + 1) [] roots

/-- Modelled from the spec: `delete_nodes` removes every closure member (and the
links touching it) from durable storage; deletion is destructive and irreversible. -/
def delete_nodes (g : DGraph) (roots : List Nat) (fc fr : Bool) : DGraph :=
  let del := deletion_closure g roots fc fr
  { nodes := g.nodes.filter (fun u => !(del.contains u))
    edges := g.edges.filter (fun e => !(del.contains e.source) && !(del.contains e.target)) }

/-- Modelled from the spec: the entity resolver behind `load_node` fails with a
not-found (`NotExistent`) error when no stored node carries the identifier. -/
def load_node (g : DGraph) (u : Nat) : Except AErr Unit :=
  if g.nodes.contains u then .ok () else .error .notExistent

/-- The workflow graph of `TestNodeDeletion._create_calls_n_returns_graph`, with
identifiers in1 = 1, in2 = 2, wf (W) = 3, slave1 (S1) = 4, outp1 (O1) = 5,
outp2 (O2) = 6, slave2 (S2) = 7, outp3 (O3) = 8, outp4 (O4) = 9. -/
def c4Graph : DGraph :=
  { nodes := [1, 2, 3, 4, 5, 6, 7, 8, 9]
    edges :=
      [ ⟨1, 3, .input, "i1"⟩,
        ⟨1, 4, .input, "i2"⟩,
        ⟨2, 4, .input, "i3"⟩,
        ⟨2, 7, .input, "i4"⟩,
        ⟨3, 4, .call, "c1"⟩,
        ⟨3, 7, .call, "c2"⟩,
        ⟨4, 5, .create, "o1"⟩,
        ⟨7, 6, .create, "o2"⟩,
        ⟨3, 6, .ret, "r1"⟩,
        ⟨3, 8, .create, "o3"⟩,
        ⟨3, 9, .ret, "r2"⟩ ] }

/-- A pending incoming link as cached in `_incoming_cache`:
`aiida.orm.utils.links.LinkTriple` with the source node referenced by identifier. -/
structure LinkTriple where
  source : Nat
  linkType : LinkType
  linkLabel : String
deriving DecidableEq, Repr

/-- State of one node instance for the lifecycle and link subsystem: the `_storable`
class flag, the negation of `_to_be_stored`, label and description, the attribute
mapping (serving as `_attrs_cache` before storing and as the durable attributes
afterwards, since `_db_store` persists the cache unchanged), the pending
incoming-link cache, the `_cacheable` class flag, the `_is_valid_cache` hook result,
the abstract content hash (`get_hash` / the `_aiida_hash` extra; `make_hash` lives
outside src/), and the `_aiida_cached_from` extra. -/
structure StoreNode where
  storable : Bool
  stored : Bool
  label : String
  description : String
  attrs : List (String × AttrValue)
  incomingCache : List LinkTriple
  cacheable : Bool
  validCache : Bool
  nodeHash : Option Nat
  cachedFrom : Option Nat
deriving DecidableEq, Repr

/-- The world: every node instance by identifier, the durable records in insertion
order, and the durable links. -/
structure World where
  nodes : List (Nat × StoreNode)
  dbRecords : List Nat
  dbLinks : List DbLink
deriving DecidableEq, Repr

def node_list_lookup : List (Nat × StoreNode) → Nat → Option StoreNode
  | [], _ => none
  | (v, n) :: tl, u => if v = u then some n else node_list_lookup tl u

def lookup_node (w : World) (u : Nat) : Option StoreNode :=
  node_list_lookup w.nodes u

/-- Apply `f` to the node registered under `u`. -/
def node_list_map : List (Nat × StoreNode) → Nat → (StoreNode → StoreNode) →
    List (Nat × StoreNode)
  | [], _, _ => []
  | (a, m) :: tl, u, f =>
    (if a = u then (a, f m) else (a, m)) :: node_list_map tl u f

def map_node (w : World) (u : Nat) (f : StoreNode → StoreNode) : World :=
  { w with nodes := node_list_map w.nodes u f }

/-- `is_stored` of the node instance registered under `u`. -/
def node_stored (w : World) (u : Nat) : Bool :=
  match lookup_node w u with
  | some n => n.stored
  | none => false

/-- The cached incoming links of all node instances, as directed edges. -/
def cache_edges (l : List (Nat × StoreNode)) : List DbLink :=
  (l.map (fun p => p.2.incomingCache.map
      (fun t => DbLink.mk t.source p.1 t.linkType t.linkLabel))).flatten

/-- The combined stored plus cached links: cycle validation considers reachability
"via existing stored+cached links" (spec, section 4.2). -/
def all_edges (w : World) : List DbLink :=
  w.dbLinks ++ cache_edges w.nodes

/-- One step along a provenance-type link from `a` to `b`. -/
def edge_step (es : List DbLink) (a b : Nat) : Bool :=
  es.any (fun e => e.linkType.isProvenance && e.source == a && e.target == b)

/-- One breadth-first expansion of a frontier along provenance-type links. -/
def expand_frontier (es : List DbLink) (cur : List Nat) : List Nat :=
  cur ++ (es.filter (fun e => e.linkType.isProvenance && cur.contains e.source)).map
    (fun e => e.target)

def reach_set (es : List DbLink) : Nat → List Nat → List Nat
  | 0, cur => cur
  | k + 1, cur => reach_set es k (expand_frontier es cur)

/-- Modelled from the spec: the reachability test of the acyclicity rule of
`validate_link` (module `aiida.orm.utils.links`, not under src/): `b` is reachable
from `a` through provenance-type links, including by the empty path, so a proposed
self-link is rejected as well. -/
def reachableB (es : List DbLink) (a b : Nat) : Bool :=
  (reach_set es (es.length + 1) [a]).contains b

/-- `AbstractNode.add_incoming(source, link_type, link_label)`: validate the link —
the acyclicity rule of `validate_link` is modelled from the spec; the role/degree
rules of that missing module are not modelled, matching the tests, which freely link
plain nodes with every link type — then, when both endpoints are stored, write
durably via `_add_dblink_from` (a backend method, modelled from spec section 4.2
step 4: a duplicate (source, label) link onto the same target fails with a
uniqueness error), and otherwise append to the target's cache via
`_add_cachelink_from` (an identical triple already in the cache raises
`UniquenessError`). -/
def add_incoming (w : World) (target source : Nat) (lt : LinkType) (lbl : String) :
    Except AErr World :=
  match lookup_node w target, lookup_node w source with
  | some tn, some sn =>
    if lt.isProvenance && reachableB (all_edges w) target source then .error .valueError
    else if tn.stored && sn.stored then
      if w.dbLinks.any (fun l => l.target == target && l.source == source && l.linkLabel == lbl)
      then .error .uniquenessError
      else .ok { w with dbLinks := w.dbLinks ++ [⟨source, target, lt, lbl⟩] }
    else
      if tn.incomingCache.contains ⟨source, lt, lbl⟩ then .error .uniquenessError
      else .ok (map_node w target
        (fun n => { n with incomingCache := n.incomingCache ++ [⟨source, lt, lbl⟩] }))
  | _, _ => .error .notExistent

def merge_cached (acc : List LinkTriple) : List LinkTriple → Except AErr (List LinkTriple)
  | [] => .ok acc
  | t :: ts => if acc.contains t then .error .internalError else merge_cached (acc ++ [t]) ts

/-- `AbstractNode.get_incoming()` with default arguments (no class, link-type or
label filter): the stored link triples — only for a stored node — followed by the
cached ones, raising `InternalError` when a cached triple is already among the
collected triples (the defensive check of oldnode.py). -/
def get_incoming (w : World) (u : Nat) : Except AErr (List LinkTriple) :=
  match lookup_node w u with
  | none => .error .notExistent
  | some n =>
    let storedTriples :=
      if n.stored then
        (w.dbLinks.filter (fun l => l.target == u)).map
          (fun l => LinkTriple.mk l.source l.linkType l.linkLabel)
      else []
    merge_cached storedTriples n.incomingCache

/-- `AbstractNode._check_are_parents_stored`: every source of a cached incoming link
must already be stored. -/
def check_are_parents_stored (w : World) (n : StoreNode) : Bool :=
  n.incomingCache.all (fun t => node_stored w t.source)

/-- The portion of a cache flushed at store time: cached links whose source is
stored (`_store_cached_input_links` transfers exactly these to durable storage). -/
def cache_flushed (w : World) (n : StoreNode) : List LinkTriple :=
  n.incomingCache.filter (fun t => node_stored w t.source)

/-- The portion of a cache that stays cached at store time: links with an unstored
source. -/
def cache_kept (w : World) (n : StoreNode) : List LinkTriple :=
  n.incomingCache.filter (fun t => !(node_stored w t.source))

/-- Modelled from the spec and from the `_db_store` / `_store_cached_input_links`
docstrings (the implementations live in the database backends, not under src/):
persist the record, mark the node stored, and flush every cached incoming link whose
source is already stored to durable storage; links with unstored sources stay
cached. -/
def db_store (w : World) (u : Nat) : World :=
  match lookup_node w u with
  | none => w
  | some n =>
    { nodes := node_list_map w.nodes u
        (fun m => { m with stored := true, incomingCache := cache_kept w n })
      dbRecords := w.dbRecords ++ [u]
      dbLinks := w.dbLinks ++ (cache_flushed w n).map
        (fun t => ⟨t.source, u, t.linkType, t.linkLabel⟩) }

/-- `AbstractNode._get_same_node` / `_iter_all_same_nodes`: nothing for a
non-cacheable class or when hashing failed; otherwise the first stored node whose
hash extra matches and whose `_is_valid_cache` hook accepts. (The query itself runs
through the QueryBuilder, outside src/; type equality is implicit because a single
node kind is modelled.) -/
def get_same_node (w : World) (u : Nat) : Option Nat :=
  match lookup_node w u with
  | none => none
  | some n =>
    if !n.cacheable then none
    else
      match n.nodeHash with
      | none => none
      | some h =>
        (w.dbRecords.filter (fun c =>
          match lookup_node w c with
          | some cn => cn.stored && cn.nodeHash == some h && cn.validCache
          | none => false)).head?

/-- The non-cached execution of `AbstractNode.store`, that is exactly
`store(use_cache=False)`: storability check, `_validate` (always true for the base
class), parents check, then `_db_store`; an already stored node skips the block and
is returned unchanged. `_store_from_cache` re-enters `store` with `use_cache=False`,
which is this function. -/
def store_no_cache (w : World) (u : Nat) : Except AErr World :=
  match lookup_node w u with
  | none => .error .notExistent
  | some n =>
    if !n.storable then .error .storingNotAllowed
    else if !n.stored then
      if !(check_are_parents_stored w n) then .error .modificationNotAllowed
      else .ok (db_store w u)
    else .ok w

/-- The attribute copy of `_store_from_cache`: every attribute of the cache node is
set on self except the sealing key (`Sealable.SEALED_KEY`, the string "sealed"). -/
def copy_attrs (dst : List (String × AttrValue)) :
    List (String × AttrValue) → List (String × AttrValue)
  | [] => dst
  | (k, v) :: tl =>
    if k = "sealed" then copy_attrs dst tl else copy_attrs (update_assoc dst k v) tl

/-- `AbstractNode.get_outgoing(link_type=lt)`: durable links only — there is no
outgoing cache. -/
def outgoing_links (w : World) (u : Nat) (lt : LinkType) : List DbLink :=
  w.dbLinks.filter (fun l => l.source == u && l.linkType == lt)

/-- `AbstractNode._store_from_cache(cache_node)`: copy label, description and the
non-sealed attributes (the repository-folder copy is part of the copied content and
is not modelled separately), then raise `ValueError` when the cache node has any
RETURN-type outgoing link; otherwise store self without caching and record the
`_aiida_cached_from` extra. -/
def store_from_cache (w : World) (u cacheU : Nat) : Except AErr World :=
  match lookup_node w cacheU with
  | none => .error .notExistent
  | some cn =>
    let w1 := map_node w u (fun n =>
      { n with label := cn.label, description := cn.description,
               attrs := copy_attrs n.attrs cn.attrs })
    if !(outgoing_links w1 cacheU .ret).isEmpty then .error .valueError
    else
      match store_no_cache w1 u with
      | .error e => .error e
      | .ok w2 => .ok (map_node w2 u (fun n => { n with cachedFrom := some cacheU }))

/-- A fresh identifier for a clone. -/
def fresh_uuid (w : World) : Nat :=
  (w.nodes.map (fun p => p.1)).foldr max 0 + 1

/-- `clone()` of a node (defined on the Data subclasses, outside oldnode.py): an
unstored copy of the content, with no links. -/
def clone_node (n : StoreNode) : StoreNode :=
  { n with stored := false, incomingCache := [], cachedFrom := none }

/-- The loop body of `AbstractNode._add_outputs_from_cache`: for each CREATE-linked
output of the cache node, clone it, link the clone from self with the same label and
store it (`new_node.store()`; the configured caching default is modelled as off). -/
def clone_outputs (w : World) (u : Nat) : List DbLink → Except AErr World
  | [] => .ok w
  | l :: ls =>
    match lookup_node w l.target with
    | none => .error .notExistent
    | some t =>
      let f := fresh_uuid w
      let w1 : World := { w with nodes := w.nodes ++ [(f, clone_node t)] }
      match add_incoming w1 f u .create l.linkLabel with
      | .error e => .error e
      | .ok w2 =>
        match store_no_cache w2 f with
        | .error e => .error e
        | .ok w3 => clone_outputs w3 u ls

def add_outputs_from_cache (w : World) (u cacheU : Nat) : Except AErr World :=
  clone_outputs w u (outgoing_links w cacheU .create)

/-- `AbstractNode.store(use_cache)`: storability check, `_validate` (always true for
the base class), then — only when the node is still to be stored — the parents
check, cache resolution (`use_cache=None` resolves to the configured default, a
parameter here), and either the cache-reuse path (`_store_from_cache` followed by
`_add_outputs_from_cache`) or normal durable persistence through `_db_store`. An
already stored node skips the whole block and is returned unchanged. -/
def store (w : World) (u : Nat) (use_cache : Bool) : Except AErr World :=
  match lookup_node w u with
  | none => .error .notExistent
  | some n =>
    if !n.storable then .error .storingNotAllowed
    else if !n.stored then
      if !(check_are_parents_stored w n) then .error .modificationNotAllowed
      else
        match (if use_cache then get_same_node w u else none) with
        | some cacheU =>
          match store_from_cache w u cacheU with
          | .error e => .error e
          | .ok w1 => add_outputs_from_cache w1 u cacheU
        | none => .ok (db_store w u)
    else .ok w

/-- The loop of `AbstractNode._store_input_nodes` over the cached triples: store
every source that is not stored yet (`store(with_transaction=False)`; the configured
caching default is modelled as off). -/
def store_sources (w : World) : List LinkTriple → Except AErr World
  | [] => .ok w
  | t :: ts =>
    if node_stored w t.source then store_sources w ts
    else
      match store w t.source false with
      | .error e => .error e
      | .ok w' => store_sources w' ts

/-- `AbstractNode._store_input_nodes`: refuse on a stored node, then store the
unstored cached-link sources. -/
def store_input_nodes (w : World) (u : Nat) : Except AErr World :=
  match lookup_node w u with
  | none => .error .notExistent
  | some n =>
    if n.stored then .error .modificationNotAllowed
    else store_sources w n.incomingCache

/-- `_check_are_parents_stored` applied to the source node of a cached link, as
`store_all` does for every entry of the cache. -/
def source_parents_stored (w : World) (u : Nat) : Bool :=
  match lookup_node w u with
  | some n => check_are_parents_stored w n
  | none => false

/-- `AbstractNode.store_all(use_cache)`: an already stored node raises
`ModificationNotAllowed`; each cached-link source must itself have only stored
parents (otherwise `ModificationNotAllowed` — only direct parents may be unstored,
never grandparents); then `_db_store_all` (a backend method; modelled from spec
section 4.4 and the in-src `_store_input_nodes`: store the unstored direct sources,
then self). -/
def store_all (w : World) (u : Nat) (use_cache : Bool) : Except AErr World :=
  match lookup_node w u with
  | none => .error .notExistent
  | some n =>
    if n.stored then .error .modificationNotAllowed
    else if !(n.incomingCache.all (fun t => source_parents_stored w t.source)) then
      .error .modificationNotAllowed
    else
      match store_input_nodes w u with
      | .error e => .error e
      | .ok w1 => store w1 u use_cache

/-- A plain storable, unstored node instance. -/
def plainNode : StoreNode :=
  { storable := true
    stored := false
    label := ""
    description := ""
    attrs := []
    incomingCache := []
    cacheable := true
    validCache := true
    nodeHash := none
    cachedFrom := none }

/-- One unstored storable node, identifier 0. -/
def c1World : World := { nodes := [(0, plainNode)], dbRecords := [], dbLinks := [] }

/-- `c1World` after the first successful `store`. -/
def c1StoredWorld : World :=
  { nodes := [(0, { plainNode with stored := true })], dbRecords := [0], dbLinks := [] }

/-- Cache-reuse scenario: node 0 is a stored equivalent with hash 7 and a RETURN link
to node 9; node 1 is unstored with the same hash. -/
def c2World : World :=
  { nodes :=
      [ (0, { plainNode with stored := true, nodeHash := some 7 }),
        (9, { plainNode with stored := true }),
        (1, { plainNode with nodeHash := some 7 }) ]
    dbRecords := [0, 9]
    dbLinks := [⟨0, 9, .ret, "r"⟩] }

/-- Two unstored storable nodes for the duplicate-link scenario. -/
def c6World : World :=
  { nodes := [(0, plainNode), (1, plainNode)], dbRecords := [], dbLinks := [] }

/-- `c6World` after node 0 is stored. -/
def c6W1 : World :=
  { nodes := [(0, { plainNode with stored := true }), (1, plainNode)]
    dbRecords := [0]
    dbLinks := [] }

/-- `c6W1` after caching the incoming link (1, INPUT, "l") on the stored node 0. -/
def c6W2 : World :=
  { nodes :=
      [ (0, { plainNode with stored := true, incomingCache := [⟨1, .input, "l"⟩] }),
        (1, plainNode) ]
    dbRecords := [0]
    dbLinks := [] }

/-- `c6W2` after node 1 is stored: node 0 still carries the cached triple, because
only a node's own store flushes its cache. -/
def c6W3 : World :=
  { nodes :=
      [ (0, { plainNode with stored := true, incomingCache := [⟨1, .input, "l"⟩] }),
        (1, { plainNode with stored := true }) ]
    dbRecords := [0, 1]
    dbLinks := [] }

/-- `c6W3` after the same triple is accepted again, now durably. -/
def c6W4 : World :=
  { nodes :=
      [ (0, { plainNode with stored := true, incomingCache := [⟨1, .input, "l"⟩] }),
        (1, { plainNode with stored := true }) ]
    dbRecords := [0, 1]
    dbLinks := [⟨1, 0, .input, "l"⟩] }

/-- The store_all two-level scenario: A = 0 ← B = 1 ← C = 2 through cached INPUT
links, all unstored. -/
def c3World : World :=
  { nodes :=
      [ (0, plainNode),
        (1, { plainNode with incomingCache := [⟨0, .input, "a"⟩] }),
        (2, { plainNode with incomingCache := [⟨1, .input, "b"⟩] }) ]
    dbRecords := []
    dbLinks := [] }

/-- `c3World` after A is stored. -/
def c3WorldA : World :=
  { nodes :=
      [ (0, { plainNode with stored := true }),
        (1, { plainNode with incomingCache := [⟨0, .input, "a"⟩] }),
        (2, { plainNode with incomingCache := [⟨1, .input, "b"⟩] }) ]
    dbRecords := [0]
    dbLinks := [] }

/-- `c3WorldA` after `store_all` on C: B and C are stored and both cached links are
flushed durably. -/
def c3WorldStored : World :=
  { nodes :=
      [ (0, { plainNode with stored := true }),
        (1, { plainNode with stored := true }),
        (2, { plainNode with stored := true }) ]
    dbRecords := [0, 1, 2]
    dbLinks := [⟨0, 1, .input, "a"⟩, ⟨1, 2, .input, "b"⟩] }

/-- A concrete provenance path: `chainB es a p b` holds when the node list `p` leads
from `a` to `b` along provenance-type edges (the empty path requires `a = b`). -/
def chainB (es : List DbLink) : Nat → List Nat → Nat → Bool
  | a, [], b => a == b
  | a, x :: p, b => edge_step es a x && chainB es x p b

/-- Targets of provenance-type edges: every node a nonempty chain can end in. -/
def prov_targets (es : List DbLink) : List Nat :=
  (es.filter (fun e => e.linkType.isProvenance)).map (fun e => e.target)

/-- Successors of `u` along provenance-type edges. -/
def succ_targets (es : List DbLink) (u : Nat) : List Nat :=
  (es.filter (fun e => e.linkType.isProvenance && e.source == u)).map (fun e => e.target)

/-- Acyclicity of the provenance-restricted link graph as a proposition: no node
closes a nonempty provenance chain back to itself. -/
def Acyclic (es : List DbLink) : Prop :=
  ∀ u x p, chainB es u (x :: p) u = false

/-- Executable acyclicity of the provenance-restricted link graph: no
provenance-edge target reaches itself through a nonempty provenance path. -/
def AcyclicB (es : List DbLink) : Bool :=
  (prov_targets es).all
    (fun u => !((reach_set es (es.length + 1) (succ_targets es u)).contains u))

/-- Chain A(0) → B(1) → C(2) → D(3) of stored nodes through durable CREATE links. -/
def chainWorld : World :=
  { nodes :=
      [ (0, { plainNode with stored := true }),
        (1, { plainNode with stored := true }),
        (2, { plainNode with stored := true }),
        (3, { plainNode with stored := true }) ]
    dbRecords := [0, 1, 2, 3]
    dbLinks := [⟨0, 1, .create, "c1"⟩, ⟨1, 2, .create, "c2"⟩, ⟨2, 3, .create, "c3"⟩] }

/-- `chainWorld` after the (acyclicity-preserving) addition of a CREATE link from A
to D. -/
def chainWorldExt : World :=
  { nodes :=
      [ (0, { plainNode with stored := true }),
        (1, { plainNode with stored := true }),
        (2, { plainNode with stored := true }),
        (3, { plainNode with stored := true }) ]
    dbRecords := [0, 1, 2, 3]
    dbLinks := [⟨0, 1, .create, "c1"⟩, ⟨1, 2, .create, "c2"⟩, ⟨2, 3, .create, "c3"⟩,
                ⟨0, 3, .create, "extra"⟩] }

/-- A Python runtime value as held in the attribute cache for the aliasing model of
`_append_to_attr`: a plain integer or a reference to a heap-allocated list object. -/
inductive PyVal where
  | vint (n : Int)
  | vref (r : Nat)
deriving DecidableEq, Repr

/-- The Python heap restricted to list objects: cell `r` holds the list object that
`vref r` points to. -/
structure Heap where
  cells : List (List PyVal)
deriving DecidableEq, Repr

/-- Overwrite a heap cell in place (a Python `list.append` mutates the object). -/
def heap_set (h : Heap) (r : Nat) (cell : List PyVal) : Heap :=
  ⟨h.cells.set r cell⟩

/-- Modelled from the spec: the recursive canonicalising copy performed by
`clean_value` (not under src/) over a sequence of values, threading the heap: an
integer is returned as is, a list reference is deep-copied into a freshly allocated
cell, so the cache never aliases a caller-held list. The fuel (one unit per value
processed) makes the heap recursion structural; called with ample fuel. -/
def clean_vals : Nat → Heap → List PyVal → Option (Heap × List PyVal)
  | _, h, [] => some (h, [])
  | 0, _, _ :: _ => none
  | fuel + 1, h, .vint n :: xs =>
    match clean_vals fuel h xs with
    | none => none
    | some (h1, ys) => some (h1, .vint n :: ys)
  | fuel + 1, h, .vref r :: xs =>
    match h.cells.get? r with
    | none => none
    | some cell =>
      match clean_vals fuel h cell with
      | none => none
      | some (h1, ys) =>
        match clean_vals fuel ⟨h1.cells ++ [ys]⟩ xs with
        | none => none
        | some (h2, zs) => some (h2, .vref h1.cells.length :: zs)

/-- `clean_value` on a single value (see `clean_vals`). -/
def clean_value_heap (fuel : Nat) (h : Heap) (v : PyVal) : Option (Heap × PyVal) :=
  match clean_vals fuel h [v] with
  | some (h', [v']) => some (h', v')
  | _ => none

/-- The attribute cache of an unstored node for the aliasing model
(`_append_to_attr` and `_set_attr` act on the cache path, the node being unstored
throughout). -/
structure HNode where
  attrsCache : List (String × PyVal)
deriving DecidableEq, Repr

/-- Result of a heap-model operation: success, a raised error, or exhausted copy
fuel (a modelling artifact, never reached on the concrete inputs considered). -/
inductive HRes where
  | ok (h : Heap) (n : HNode)
  | err (e : AErr)
  | nofuel
deriving DecidableEq, Repr

/-- `AbstractNode._set_attr(key, value, clean)` on an unstored node: validate the
key, then cache `clean_value(value)` (a fresh copy for list values) or, with
`clean=False`, the value itself (sharing the caller's object). -/
def set_attr_heap (fuel : Nat) (h : Heap) (n : HNode) (key : String) (v : PyVal)
    (clean : Bool) : HRes :=
  if !(validate_attribute_key key) then .err .validationError
  else if clean then
    match clean_value_heap fuel h v with
    | none => .nofuel
    | some (h1, v') => .ok h1 ⟨update_assoc n.attrsCache key v'⟩
  else .ok h ⟨update_assoc n.attrsCache key v⟩

/-- `AbstractNode._append_to_attr(key, value, clean)` on an unstored node: read the
current attribute (`values = self.get_attr(key)`; a fresh empty list when the key is
absent), then `values.append(clean_value(value))` — an in-place mutation of the heap
object, raising `AttributeError` when the current value is not a list — and re-set
the attribute with `clean=False`. A dangling reference (impossible in Python, where
the object itself is held) reports `InternalError`. -/
def append_to_attr (fuel : Nat) (h : Heap) (n : HNode) (key : String) (v : PyVal)
    (clean : Bool) : HRes :=
  if !(validate_attribute_key key) then .err .validationError
  else
    match lookup_assoc n.attrsCache key with
    | none =>
      match (if clean then clean_value_heap fuel h v else some (h, v)) with
      | none => .nofuel
      | some (h1, v') =>
        .ok ⟨h1.cells ++ [[v']]⟩ ⟨update_assoc n.attrsCache key (.vref h1.cells.length)⟩
    | some (.vint _) => .err .attributeError
    | some (.vref r) =>
      match h.cells.get? r with
      | none => .err .internalError
      | some cell =>
        match (if clean then clean_value_heap fuel h v else some (h, v)) with
        | none => .nofuel
        | some (h1, v') =>
          .ok (heap_set h1 r (cell ++ [v'])) ⟨update_assoc n.attrsCache key (.vref r)⟩

/-- A sequence of appends to the same attribute, as in "any sequence of
set-then-append operations". -/
def append_many (fuel : Nat) (h : Heap) (n : HNode) (key : String) :
    List PyVal → HRes
  | [] => .ok h n
  | v :: vs =>
    match append_to_attr fuel h n key v true with
    | .ok h1 n1 => append_many fuel h1 n1 key vs
    | r => r

/-- Concrete stored node exercising the attribute-immutability paths. -/
def c7Node : AttrNode :=
  { toBeStored := false
    attrsCache := []
    dbAttrs := [("a", .int 1)]
    dbExtras := []
    updatableAttributes := ["state"]
    hashIgnoredAttributes := []
    folderContents := []
    computerUuid := none }

/-- Digest function used to exercise `get_hash` on concrete inputs. -/
def c8MakeHash : HashObjects → Option Nat :=
  fun h => some (h.hashedAttrs.length + h.folderContents.length)

/-- Concrete unstored node with one plain and one updatable-flagged attribute,
mirroring `TestNodeHashing.test_updatable_attributes`. -/
def c8Node : AttrNode :=
  { toBeStored := true
    attrsCache := [("a", .int 1)]
    dbAttrs := []
    dbExtras := []
    updatableAttributes := ["process_state"]
    hashIgnoredAttributes := []
    folderContents := []
    computerUuid := none }

/-- `c8Node` after setting its updatable `process_state` attribute. -/
def c8NodeAfter : AttrNode :=
  { c8Node with attrsCache := update_assoc c8Node.attrsCache "process_state" (.str "finished") }

/-- Concrete unstored node whose durable extras table is nonempty, so that the
unstored extras readers can be seen not to consult it. -/
def c10Node : AttrNode :=
  { toBeStored := true
    attrsCache := []
    dbAttrs := []
    dbExtras := [("x", .int 9)]
    updatableAttributes := []
    hashIgnoredAttributes := []
    folderContents := []
    computerUuid := none }

theorem filter_update_assoc {α : Type} (P : String → Bool) (l : List (String × α))
    (k : String) (v : α) (hk : P k = false) :
    (update_assoc l k v).filter (fun kv => P kv.1) = l.filter (fun kv => P kv.1) := by
  induction l with
  | nil => simp [update_assoc, List.filter, hk]
  | cons hd tl ih =>
    by_cases h : hd.1 = k
    · cases hd with
      | mk k' v' =>
        simp only at h
        subst h
        simp [update_assoc, List.filter, hk]
    · cases hd with
      | mk k' v' =>
        simp only at h
        simp only [update_assoc, if_neg h, List.filter]
        cases hP : P k' <;> simp [hP, ih]

theorem filter_update_hashed (ign upd : List String) (l : List (String × AttrValue))
    (key : String) (v : AttrValue)
    (hPkey : (!(ign.contains key) && !(upd.contains key)) = false) :
    (update_assoc l key v).filter
        (fun kv => !(ign.contains kv.1) && !(upd.contains kv.1))
      = l.filter (fun kv => !(ign.contains kv.1) && !(upd.contains kv.1)) :=
  filter_update_assoc (fun k => !(ign.contains k) && !(upd.contains k)) l key v hPkey

theorem node_list_lookup_map_self (l : List (Nat × StoreNode)) (u : Nat)
    (f : StoreNode → StoreNode) :
    node_list_lookup (node_list_map l u f) u = (node_list_lookup l u).map f := by
  induction l with
  | nil => rfl
  | cons p tl ih =>
    obtain ⟨a, m⟩ := p
    show node_list_lookup ((if a = u then (a, f m) else (a, m)) :: node_list_map tl u f) u
        = (node_list_lookup ((a, m) :: tl) u).map f
    by_cases h : a = u
    · subst h
      rw [if_pos rfl]
      show (if a = a then some (f m) else node_list_lookup (node_list_map tl a f) a)
          = ((if a = a then some m else node_list_lookup tl a).map f)
      rw [if_pos rfl, if_pos rfl]
      rfl
    · rw [if_neg h]
      show (if a = u then some m else node_list_lookup (node_list_map tl u f) u)
          = ((if a = u then some m else node_list_lookup tl u).map f)
      rw [if_neg h, if_neg h, ih]

theorem node_list_lookup_map_other (l : List (Nat × StoreNode)) (u v : Nat)
    (f : StoreNode → StoreNode) (h : v ≠ u) :
    node_list_lookup (node_list_map l u f) v = node_list_lookup l v := by
  induction l with
  | nil => rfl
  | cons p tl ih =>
    obtain ⟨a, m⟩ := p
    show node_list_lookup ((if a = u then (a, f m) else (a, m)) :: node_list_map tl u f) v
        = node_list_lookup ((a, m) :: tl) v
    by_cases ha : a = u
    · subst ha
      rw [if_pos rfl]
      have hav : ¬(a = v) := fun hh => h (hh.symm)
      show (if a = v then some (f m) else node_list_lookup (node_list_map tl a f) v)
          = (if a = v then some m else node_list_lookup tl v)
      rw [if_neg hav, if_neg hav, ih]
    · rw [if_neg ha]
      show (if a = v then some m else node_list_lookup (node_list_map tl u f) v)
          = (if a = v then some m else node_list_lookup tl v)
      by_cases hav : a = v
      · rw [if_pos hav, if_pos hav]
      · rw [if_neg hav, if_neg hav, ih]

theorem node_list_lookup_append (l : List (Nat × StoreNode)) (p : Nat × StoreNode)
    (v : Nat) (m : StoreNode) (h : node_list_lookup l v = some m) :
    node_list_lookup (l ++ [p]) v = some m := by
  induction l with
  | nil => exact absurd h (by simp [node_list_lookup])
  | cons q tl ih =>
    obtain ⟨a, x⟩ := q
    by_cases ha : a = v
    · subst ha
      simp only [node_list_lookup, if_pos rfl] at h
      simpa [node_list_lookup] using h
    · simp only [node_list_lookup, if_neg ha] at h
      simpa [node_list_lookup, ha] using ih h

theorem lookup_map_node (w : World) (u : Nat) (f : StoreNode → StoreNode) (v : Nat) :
    lookup_node (map_node w u f) v
      = if v = u then (lookup_node w u).map f else lookup_node w v := by
  by_cases h : v = u
  · subst h
    simp [map_node, lookup_node, node_list_lookup_map_self]
  · simp [map_node, lookup_node, node_list_lookup_map_other _ _ _ _ h, h]

theorem node_stored_map_preserve (w : World) (u : Nat) (f : StoreNode → StoreNode)
    (hf : ∀ m, (f m).stored = m.stored) (v : Nat) :
    node_stored (map_node w u f) v = node_stored w v := by
  unfold node_stored
  rw [lookup_map_node]
  by_cases h : v = u
  · subst h
    simp only [if_pos rfl]
    cases lookup_node w v with
    | none => rfl
    | some m => simp [hf m]
  · simp [h]

theorem node_stored_def (ns : List (Nat × StoreNode)) (rs : List Nat) (ls : List DbLink)
    (v : Nat) :
    node_stored ⟨ns, rs, ls⟩ v
      = (match node_list_lookup ns v with
          | some m => m.stored
          | none => false) := rfl

theorem db_store_eq (w : World) (u : Nat) (n : StoreNode) (hl : lookup_node w u = some n) :
    db_store w u
      = ⟨node_list_map w.nodes u
            (fun m => { m with stored := true, incomingCache := cache_kept w n }),
          w.dbRecords ++ [u],
          w.dbLinks ++ (cache_flushed w n).map
            (fun t => ⟨t.source, u, t.linkType, t.linkLabel⟩)⟩ := by
  unfold db_store
  rw [hl]

theorem db_store_eq_none (w : World) (u : Nat) (hl : lookup_node w u = none) :
    db_store w u = w := by
  unfold db_store
  rw [hl]

theorem db_store_stored_self (w : World) (u : Nat) (n : StoreNode)
    (hl : lookup_node w u = some n) : node_stored (db_store w u) u = true := by
  rw [db_store_eq w u n hl, node_stored_def, node_list_lookup_map_self]
  rw [show node_list_lookup w.nodes u = some n from hl]
  rfl

theorem db_store_stored_mono (w : World) (u v : Nat) (h : node_stored w v = true) :
    node_stored (db_store w u) v = true := by
  cases hl : lookup_node w u with
  | none => rw [db_store_eq_none w u hl]; exact h
  | some n =>
    by_cases hv : v = u
    · subst hv
      exact db_store_stored_self w v n hl
    · rw [db_store_eq w u n hl, node_stored_def, node_list_lookup_map_other _ _ _ _ hv]
      exact h

theorem node_stored_append (w : World) (p : Nat × StoreNode) (v : Nat)
    (h : node_stored w v = true) :
    node_stored { w with nodes := w.nodes ++ [p] } v = true := by
  unfold node_stored at h
  cases hlv : lookup_node w v with
  | none => rw [hlv] at h; exact absurd h Bool.false_ne_true
  | some m =>
    rw [hlv] at h
    have h2 : node_list_lookup (w.nodes ++ [p]) v = some m :=
      node_list_lookup_append _ _ _ _ hlv
    show (match node_list_lookup (w.nodes ++ [p]) v with
      | some n => n.stored
      | none => false) = true
    rw [h2]
    exact h

theorem add_incoming_stored_mono (w : World) (t s : Nat) (lt : LinkType) (lbl : String)
    (w' : World) (hok : add_incoming w t s lt lbl = .ok w') (v : Nat)
    (h : node_stored w v = true) : node_stored w' v = true := by
  unfold add_incoming at hok
  cases ht : lookup_node w t with
  | none =>
    simp only [ht] at hok
    exact Except.noConfusion hok
  | some tn =>
    cases hs : lookup_node w s with
    | none =>
      simp only [ht, hs] at hok
      exact Except.noConfusion hok
    | some sn =>
      simp only [ht, hs] at hok
      split at hok
      · exact Except.noConfusion hok
      · split at hok
        · split at hok
          · exact Except.noConfusion hok
          · injection hok with h'
            subst h'
            exact h
        · split at hok
          · exact Except.noConfusion hok
          · injection hok with h'
            subst h'
            have hpre := node_stored_map_preserve w t
              (fun n => { n with incomingCache := n.incomingCache ++ [⟨s, lt, lbl⟩] })
              (fun m => rfl) v
            rw [hpre]
            exact h

theorem store_no_cache_stored_mono (w : World) (u : Nat) (w' : World)
    (hok : store_no_cache w u = .ok w') (v : Nat) (h : node_stored w v = true) :
    node_stored w' v = true := by
  unfold store_no_cache at hok
  cases hl : lookup_node w u with
  | none =>
    simp only [hl] at hok
    exact Except.noConfusion hok
  | some n =>
    simp only [hl] at hok
    split at hok
    · exact Except.noConfusion hok
    · split at hok
      · split at hok
        · exact Except.noConfusion hok
        · injection hok with h'
          subst h'
          exact db_store_stored_mono w u v h
      · injection hok with h'
        subst h'
        exact h

theorem store_no_cache_marks_self (w : World) (u : Nat) (w' : World)
    (hok : store_no_cache w u = .ok w') : node_stored w' u = true := by
  unfold store_no_cache at hok
  cases hl : lookup_node w u with
  | none =>
    simp only [hl] at hok
    exact Except.noConfusion hok
  | some n =>
    simp only [hl] at hok
    split at hok
    · exact Except.noConfusion hok
    · split at hok
      case isTrue hns =>
        split at hok
        · exact Except.noConfusion hok
        · injection hok with h'
          subst h'
          exact db_store_stored_self w u n hl
      case isFalse hns =>
        injection hok with h'
        subst h'
        have hstored : n.stored = true := by simpa using hns
        unfold node_stored
        rw [hl]
        exact hstored

theorem store_from_cache_stored_mono (w : World) (u c : Nat) (w' : World)
    (hok : store_from_cache w u c = .ok w') (v : Nat) (h : node_stored w v = true) :
    node_stored w' v = true := by
  unfold store_from_cache at hok
  cases hc : lookup_node w c with
  | none =>
    simp only [hc] at hok
    exact Except.noConfusion hok
  | some cn =>
    simp only [hc] at hok
    split at hok
    · exact Except.noConfusion hok
    · split at hok
      · exact Except.noConfusion hok
      · rename_i w2 hw2
        injection hok with h'
        subst h'
        have hpre1 := node_stored_map_preserve w2 u
          (fun n => { n with cachedFrom := some c }) (fun m => rfl) v
        rw [hpre1]
        refine store_no_cache_stored_mono _ _ _ hw2 v ?_
        have hpre2 := node_stored_map_preserve w u
          (fun n => { n with label := cn.label, description := cn.description,
                             attrs := copy_attrs n.attrs cn.attrs }) (fun m => rfl) v
        rw [hpre2]
        exact h

theorem store_from_cache_marks_self (w : World) (u c : Nat) (w' : World)
    (hok : store_from_cache w u c = .ok w') : node_stored w' u = true := by
  unfold store_from_cache at hok
  cases hc : lookup_node w c with
  | none =>
    simp only [hc] at hok
    exact Except.noConfusion hok
  | some cn =>
    simp only [hc] at hok
    split at hok
    · exact Except.noConfusion hok
    · split at hok
      · exact Except.noConfusion hok
      · rename_i w2 hw2
        injection hok with h'
        subst h'
        have hpre := node_stored_map_preserve w2 u
          (fun n => { n with cachedFrom := some c }) (fun m => rfl) u
        rw [hpre]
        exact store_no_cache_marks_self _ _ _ hw2

theorem clone_outputs_stored_mono : ∀ (ls : List DbLink) (w : World) (u : Nat)
    (w' : World), clone_outputs w u ls = .ok w' →
    ∀ v, node_stored w v = true → node_stored w' v = true := by
  intro ls
  induction ls with
  | nil =>
    intro w u w' hok v h
    injection hok with h'
    subst h'
    exact h
  | cons l tl ih =>
    intro w u w' hok v h
    unfold clone_outputs at hok
    cases hlt : lookup_node w l.target with
    | none =>
      simp only [hlt] at hok
      exact Except.noConfusion hok
    | some t =>
      simp only [hlt] at hok
      split at hok
      · exact Except.noConfusion hok
      · rename_i w2 hw2
        split at hok
        · exact Except.noConfusion hok
        · rename_i w3 hw3
          refine ih _ _ _ hok v ?_
          refine store_no_cache_stored_mono _ _ _ hw3 v ?_
          refine add_incoming_stored_mono _ _ _ _ _ _ hw2 v ?_
          exact node_stored_append w _ v h

theorem store_stored_mono (w : World) (u : Nat) (uc : Bool) (w' : World)
    (hok : store w u uc = .ok w') (v : Nat) (h : node_stored w v = true) :
    node_stored w' v = true := by
  unfold store at hok
  cases hl : lookup_node w u with
  | none =>
    simp only [hl] at hok
    exact Except.noConfusion hok
  | some n =>
    simp only [hl] at hok
    split at hok
    · exact Except.noConfusion hok
    · split at hok
      · split at hok
        · exact Except.noConfusion hok
        · split at hok
          · rename_i cacheU hcu
            split at hok
            · exact Except.noConfusion hok
            · rename_i w1 hw1
              unfold add_outputs_from_cache at hok
              exact clone_outputs_stored_mono _ _ _ _ hok v
                (store_from_cache_stored_mono _ _ _ _ hw1 v h)
          · injection hok with h'
            subst h'
            exact db_store_stored_mono w u v h
      · injection hok with h'
        subst h'
        exact h

theorem store_marks_self (w : World) (u : Nat) (uc : Bool) (w' : World)
    (hok : store w u uc = .ok w') : node_stored w' u = true := by
  unfold store at hok
  cases hl : lookup_node w u with
  | none =>
    simp only [hl] at hok
    exact Except.noConfusion hok
  | some n =>
    simp only [hl] at hok
    split at hok
    · exact Except.noConfusion hok
    · split at hok
      case isTrue hns =>
        split at hok
        · exact Except.noConfusion hok
        · split at hok
          · rename_i cacheU hcu
            split at hok
            · exact Except.noConfusion hok
            · rename_i w1 hw1
              unfold add_outputs_from_cache at hok
              exact clone_outputs_stored_mono _ _ _ _ hok u
                (store_from_cache_marks_self _ _ _ _ hw1)
          · injection hok with h'
            subst h'
            exact db_store_stored_self w u n hl
      case isFalse hns =>
        injection hok with h'
        subst h'
        have hstored : n.stored = true := by simpa using hns
        unfold node_stored
        rw [hl]
        exact hstored

theorem store_sources_stored_mono : ∀ (ts : List LinkTriple) (w w' : World),
    store_sources w ts = .ok w' → ∀ v, node_stored w v = true →
    node_stored w' v = true := by
  intro ts
  induction ts with
  | nil =>
    intro w w' hok v h
    injection hok with h'
    subst h'
    exact h
  | cons t tl ih =>
    intro w w' hok v h
    unfold store_sources at hok
    split at hok
    · exact ih _ _ hok v h
    · split at hok
      · exact Except.noConfusion hok
      · rename_i w1 hw1
        exact ih _ _ hok v (store_stored_mono _ _ _ _ hw1 v h)

theorem store_sources_stores : ∀ (ts : List LinkTriple) (w w' : World),
    store_sources w ts = .ok w' → ∀ t ∈ ts, node_stored w' t.source = true := by
  intro ts
  induction ts with
  | nil =>
    intro w w' _ t ht
    exact absurd ht (List.not_mem_nil t)
  | cons t0 tl ih =>
    intro w w' hok t ht
    unfold store_sources at hok
    split at hok
    case isTrue hst =>
      rcases List.mem_cons.mp ht with rfl | htl
      · exact store_sources_stored_mono tl w w' hok t.source hst
      · exact ih _ _ hok t htl
    case isFalse hst =>
      split at hok
      · exact Except.noConfusion hok
      · rename_i w1 hw1
        rcases List.mem_cons.mp ht with rfl | htl
        · exact store_sources_stored_mono tl _ _ hok _ (store_marks_self _ _ _ _ hw1)
        · exact ih _ _ hok t htl

/-- Claim C7: for a stored node N and an attribute key K not in its updatable
allow-list, `_set_attr(K, v)` and `_del_attr(K)` both fail with
`ModificationNotAllowed` (no new state is produced, so the attribute mapping is
unchanged), while with the `stored_check=False` override both operations succeed,
acting directly on the durable attribute table. -/
theorem claim_C7 (n : AttrNode) (key : String) (v : AttrValue)
    (hstored : is_stored n = true)
    (hupd : n.updatableAttributes.contains key = false)
    (hvalid : validate_attribute_key key = true)
    (hpresent : contains_key n.dbAttrs key = true) :
    set_attr n key v true true = .error .modificationNotAllowed ∧
    del_attr n key true = .error .modificationNotAllowed ∧
    set_attr n key v true false
      = .ok { n with dbAttrs := update_assoc n.dbAttrs key (clean_value v) } ∧
    del_attr n key false = .ok { n with dbAttrs := erase_assoc n.dbAttrs key } := by
  have htb : n.toBeStored = false := by simpa [is_stored] using hstored
  refine ⟨?_, ?_, ?_, ?_⟩ <;>
    simp [set_attr, del_attr, hstored, htb, hvalid, hpresent]

/-- Witness for claim C7 at a concrete stored node. -/
theorem claim_C7_witness :
    set_attr c7Node "a" (.int 2) true true = .error .modificationNotAllowed ∧
    del_attr c7Node "a" true = .error .modificationNotAllowed ∧
    set_attr c7Node "a" (.int 2) true false
      = .ok { c7Node with dbAttrs := update_assoc c7Node.dbAttrs "a" (clean_value (.int 2)) } ∧
    del_attr c7Node "a" false = .ok { c7Node with dbAttrs := erase_assoc c7Node.dbAttrs "a" } :=
  claim_C7 c7Node "a" (.int 2) (by decide) (by decide) (by decide) (by decide)

/-- Claim C8: mutating an attribute whose key is flagged updatable (or hash-ignored)
does not change the computed content hash: `_get_objects_to_hash` filters those keys
out of the hashed attribute mapping, so `get_hash` agrees before and after the
mutation, for every digest function. -/
theorem claim_C8 (makeHash : HashObjects → Option Nat) (n n' : AttrNode) (key : String)
    (v : AttrValue) (clean stored_check : Bool)
    (hupd : (n.updatableAttributes.contains key || n.hashIgnoredAttributes.contains key) = true)
    (hset : set_attr n key v clean stored_check = .ok n') :
    get_hash makeHash n' = get_hash makeHash n := by
  have hPkey : (!(n.hashIgnoredAttributes.contains key)
      && !(n.updatableAttributes.contains key)) = false := by
    cases hi : n.hashIgnoredAttributes.contains key
    · cases hu : n.updatableAttributes.contains key
      · rw [hu, hi] at hupd
        exact absurd hupd (by decide)
      · simp [hi, hu]
    · simp [hi]
  unfold set_attr at hset
  split at hset
  · exact Except.noConfusion hset
  · split at hset
    · exact Except.noConfusion hset
    · split at hset
      case isTrue htb =>
        injection hset with h'
        subst h'
        dsimp only [get_hash, get_objects_to_hash, get_attrs]
        rw [if_pos htb, if_pos htb,
          filter_update_hashed n.hashIgnoredAttributes n.updatableAttributes
            n.attrsCache key _ hPkey]
      case isFalse htb =>
        injection hset with h'
        subst h'
        dsimp only [get_hash, get_objects_to_hash, get_attrs]
        rw [if_neg htb, if_neg htb,
          filter_update_hashed n.hashIgnoredAttributes n.updatableAttributes
            n.dbAttrs key _ hPkey]

/-- Witness for claim C8: setting the updatable `process_state` attribute leaves the
hash unchanged on a concrete node. -/
theorem claim_C8_witness :
    get_hash c8MakeHash c8NodeAfter = get_hash c8MakeHash c8Node :=
  claim_C8 c8MakeHash c8Node c8NodeAfter "process_state" (.str "finished") true true
    (by decide) (by rfl)

/-- Claim C10: on an unstored node the extras readers never consult durable storage
and never raise ModificationNotAllowed: `get_extras()` is the empty mapping,
`iterextras()` yields nothing, and `get_extra(key)` raises AttributeError without a
default and returns the supplied default otherwise. The statement holds for every
node, in particular whatever the durable extras table contains, so durable storage
is never consulted. -/
theorem claim_C10 (n : AttrNode) (key : String) (d : AttrValue)
    (hunstored : is_stored n = false) :
    get_extras n = [] ∧ iterextras n = [] ∧
    get_extra n key none = .error .attributeError ∧
    get_extra n key (some d) = .ok d := by
  have htb : n.toBeStored = true := by simpa [is_stored] using hunstored
  refine ⟨?_, ?_, ?_, ?_⟩ <;> simp [get_extras, iterextras, get_extra, hunstored, htb]

/-- Witness for claim C10 at a concrete unstored node whose durable extras table
contains the queried key, showing the table is not consulted. -/
theorem claim_C10_witness :
    get_extras c10Node = [] ∧ iterextras c10Node = [] ∧
    get_extra c10Node "x" none = .error .attributeError ∧
    get_extra c10Node "x" (some (.int 7)) = .ok (.int 7) :=
  claim_C10 c10Node "x" (.int 7) (by decide)

/-- Claim C4: on the calls-and-returns workflow graph, deleting W (= 3) with
`follow_calls = follow_returns = True` removes exactly W, S1, S2, O1, O2, O3, O4 and
preserves I1, I2; with both policies off only W and O3 are removed; with only
`follow_returns` on, W, O3, O2 and O4 are removed. Every removed node then fails
identifier lookup with `NotExistent` while preserved nodes remain loadable. -/
theorem claim_C4 :
    ((delete_nodes c4Graph [3] true true).nodes = [1, 2] ∧
      (∀ u ∈ [3, 4, 5, 6, 7, 8, 9],
        load_node (delete_nodes c4Graph [3] true true) u = .error .notExistent) ∧
      (∀ u ∈ [1, 2], load_node (delete_nodes c4Graph [3] true true) u = .ok ())) ∧
    ((delete_nodes c4Graph [3] false false).nodes = [1, 2, 4, 5, 6, 7, 9] ∧
      (∀ u ∈ [3, 8],
        load_node (delete_nodes c4Graph [3] false false) u = .error .notExistent) ∧
      (∀ u ∈ [1, 2, 4, 5, 6, 7, 9],
        load_node (delete_nodes c4Graph [3] false false) u = .ok ())) ∧
    ((delete_nodes c4Graph [3] false true).nodes = [1, 2, 4, 5, 7] ∧
      (∀ u ∈ [3, 6, 8, 9],
        load_node (delete_nodes c4Graph [3] false true) u = .error .notExistent) ∧
      (∀ u ∈ [1, 2, 4, 5, 7],
        load_node (delete_nodes c4Graph [3] false true) u = .ok ())) := by
  decide

theorem lookup_update_assoc_self {α : Type} (l : List (String × α)) (k : String)
    (v : α) : lookup_assoc (update_assoc l k v) k = some v := by
  induction l with
  | nil =>
    show lookup_assoc [(k, v)] k = some v
    show (if k = k then some v else lookup_assoc [] k) = some v
    rw [if_pos rfl]
  | cons p tl ih =>
    obtain ⟨k', v'⟩ := p
    show lookup_assoc (if k' = k then (k', v) :: tl else (k', v') :: update_assoc tl k v) k
        = some v
    by_cases h : k' = k
    · rw [if_pos h]
      show (if k' = k then some v else lookup_assoc tl k) = some v
      rw [if_pos h]
    · rw [if_neg h]
      show (if k' = k then some v' else lookup_assoc (update_assoc tl k v) k) = some v
      rw [if_neg h]
      exact ih

theorem clean_vals_extends : ∀ (fuel : Nat) (h : Heap) (xs : List PyVal) (h' : Heap)
    (ys : List PyVal), clean_vals fuel h xs = some (h', ys) →
    ∃ ext, h'.cells = h.cells ++ ext := by
  intro fuel
  induction fuel with
  | zero =>
    intro h xs h' ys hok
    cases xs with
    | nil =>
      injection hok with hp
      injection hp with hh _
      subst hh
      exact ⟨[], by simp⟩
    | cons x xs => exact Option.noConfusion hok
  | succ fuel ih =>
    intro h xs h' ys hok
    cases xs with
    | nil =>
      injection hok with hp
      injection hp with hh _
      subst hh
      exact ⟨[], by simp⟩
    | cons x xs =>
      cases x with
      | vint n =>
        simp only [clean_vals] at hok
        cases hc : clean_vals fuel h xs with
        | none =>
          simp only [hc] at hok
          exact Option.noConfusion hok
        | some p =>
          obtain ⟨h1, ys1⟩ := p
          simp only [hc] at hok
          injection hok with hp
          injection hp with hh _
          subst hh
          exact ih h xs _ ys1 hc
      | vref r =>
        simp only [clean_vals] at hok
        cases hg : h.cells.get? r with
        | none =>
          simp only [hg] at hok
          exact Option.noConfusion hok
        | some cell =>
          simp only [hg] at hok
          cases hc1 : clean_vals fuel h cell with
          | none =>
            simp only [hc1] at hok
            exact Option.noConfusion hok
          | some p1 =>
            obtain ⟨h1, ys1⟩ := p1
            simp only [hc1] at hok
            cases hc2 : clean_vals fuel ⟨h1.cells ++ [ys1]⟩ xs with
            | none =>
              simp only [hc2] at hok
              exact Option.noConfusion hok
            | some p2 =>
              obtain ⟨h2, zs⟩ := p2
              simp only [hc2] at hok
              injection hok with hp
              injection hp with hh _
              subst hh
              obtain ⟨e1, he1⟩ := ih h cell h1 ys1 hc1
              obtain ⟨e2, he2⟩ := ih ⟨h1.cells ++ [ys1]⟩ xs _ zs hc2
              refine ⟨e1 ++ [ys1] ++ e2, ?_⟩
              rw [he2]
              show h1.cells ++ [ys1] ++ e2 = h.cells ++ (e1 ++ [ys1] ++ e2)
              rw [he1]
              simp [List.append_assoc]

theorem clean_value_heap_extends (fuel : Nat) (h : Heap) (v : PyVal) (h' : Heap)
    (v' : PyVal) (hok : clean_value_heap fuel h v = some (h', v')) :
    ∃ ext, h'.cells = h.cells ++ ext := by
  unfold clean_value_heap at hok
  cases hc : clean_vals fuel h [v] with
  | none =>
    simp only [hc] at hok
    exact Option.noConfusion hok
  | some p =>
    obtain ⟨h1, ys⟩ := p
    simp only [hc] at hok
    cases ys with
    | nil => exact Option.noConfusion hok
    | cons y ytl =>
      cases ytl with
      | nil =>
        injection hok with hp
        injection hp with hh _
        subst hh
        exact clean_vals_extends fuel h [v] _ [y] hc
      | cons z ztl => exact Option.noConfusion hok

theorem clean_value_heap_vref_fresh (fuel : Nat) (h : Heap) (r : Nat) (h' : Heap)
    (v' : PyVal) (hok : clean_value_heap fuel h (.vref r) = some (h', v')) :
    ∃ r', v' = .vref r' ∧ h.cells.length ≤ r' := by
  unfold clean_value_heap at hok
  cases fuel with
  | zero =>
    simp only [clean_vals] at hok
    exact Option.noConfusion hok
  | succ fuel =>
    simp only [clean_vals] at hok
    cases hg : h.cells.get? r with
    | none =>
      simp only [hg] at hok
      exact Option.noConfusion hok
    | some cell =>
      simp only [hg] at hok
      cases hc1 : clean_vals fuel h cell with
      | none =>
        simp only [hc1] at hok
        exact Option.noConfusion hok
      | some p1 =>
        obtain ⟨h1, ys1⟩ := p1
        simp only [hc1] at hok
        injection hok with hp
        injection hp with _ hv
        refine ⟨h1.cells.length, hv.symm, ?_⟩
        obtain ⟨e1, he1⟩ := clean_vals_extends fuel h cell h1 ys1 hc1
        rw [he1]
        simp

theorem append_to_attr_frame (fuel : Nat) (h : Heap) (n : HNode) (key : String)
    (v : PyVal) (h' : Heap) (n' : HNode) (r : Nat) (ext : List PyVal)
    (hr : h.cells.get? r = some ext)
    (hk : ∀ r2, lookup_assoc n.attrsCache key = some (.vref r2) → r2 ≠ r)
    (hok : append_to_attr fuel h n key v true = .ok h' n') :
    h'.cells.get? r = some ext ∧
    (∀ r2, lookup_assoc n'.attrsCache key = some (.vref r2) → r2 ≠ r) := by
  have hrlen : r < h.cells.length := by
    rcases List.get?_eq_some.mp hr with ⟨hlt, _⟩
    exact hlt
  unfold append_to_attr at hok
  split at hok
  · exact HRes.noConfusion hok
  · cases hla : lookup_assoc n.attrsCache key with
    | none =>
      simp only [hla] at hok
      cases hcv : clean_value_heap fuel h v with
      | none =>
        simp only [hcv, if_true] at hok
        exact HRes.noConfusion hok
      | some p =>
        obtain ⟨h1, v'⟩ := p
        simp only [hcv, if_true] at hok
        injection hok with hh hn
        subst hh
        subst hn
        obtain ⟨ext1, he1⟩ := clean_value_heap_extends fuel h v h1 v' hcv
        have hlen1 : h.cells.length ≤ h1.cells.length := by rw [he1]; simp
        constructor
        · show (h1.cells ++ [[v']]).get? r = some ext
          rw [List.get?_append (lt_of_lt_of_le hrlen hlen1), he1,
            List.get?_append hrlen]
          exact hr
        · intro r2 hr2
          rw [lookup_update_assoc_self] at hr2
          injection hr2 with hv2
          injection hv2 with hv3
          omega
    | some val =>
      cases val with
      | vint m =>
        simp only [hla] at hok
        exact HRes.noConfusion hok
      | vref r2 =>
        simp only [hla] at hok
        cases hg : h.cells.get? r2 with
        | none =>
          simp only [hg] at hok
          exact HRes.noConfusion hok
        | some cell =>
          simp only [hg] at hok
          cases hcv : clean_value_heap fuel h v with
          | none =>
            simp only [hcv, if_true] at hok
            exact HRes.noConfusion hok
          | some p =>
            obtain ⟨h1, v'⟩ := p
            simp only [hcv, if_true] at hok
            injection hok with hh hn
            subst hh
            subst hn
            have hne : r2 ≠ r := hk r2 hla
            obtain ⟨ext1, he1⟩ := clean_value_heap_extends fuel h v h1 v' hcv
            constructor
            · show (h1.cells.set r2 (cell ++ [v'])).get? r = some ext
              rw [List.get?_set_ne _ _ hne, he1, List.get?_append hrlen]
              exact hr
            · intro r3 hr3
              rw [lookup_update_assoc_self] at hr3
              injection hr3 with hv3
              injection hv3 with hv4
              subst hv4
              exact hne

theorem append_many_frame : ∀ (vs : List PyVal) (fuel : Nat) (h : Heap) (n : HNode)
    (key : String) (r : Nat) (ext : List PyVal) (h' : Heap) (n' : HNode),
    h.cells.get? r = some ext →
    (∀ r2, lookup_assoc n.attrsCache key = some (.vref r2) → r2 ≠ r) →
    append_many fuel h n key vs = .ok h' n' →
    h'.cells.get? r = some ext := by
  intro vs
  induction vs with
  | nil =>
    intro fuel h n key r ext h' n' hr _ hok
    injection hok with hh _
    subst hh
    exact hr
  | cons v vs ih =>
    intro fuel h n key r ext h' n' hr hk hok
    unfold append_many at hok
    cases ha : append_to_attr fuel h n key v true with
    | ok h1 n1 =>
      rw [ha] at hok
      have hok' : append_many fuel h1 n1 key vs = .ok h' n' := hok
      obtain ⟨hr1, hk1⟩ := append_to_attr_frame fuel h n key v h1 n1 r ext hr hk ha
      exact ih fuel h1 n1 key r ext h' n' hr1 hk1 hok'
    | err e =>
      rw [ha] at hok
      exact HRes.noConfusion hok
    | nofuel =>
      rw [ha] at hok
      exact HRes.noConfusion hok

/-- Claim C3: for an unstored storable node, `store` fails with
`ModificationNotAllowed` when any source in its pending incoming-link cache is
unstored; `store_all` fails with `ModificationNotAllowed` when such an unstored
direct source in turn has an unstored source in its own cache (only one level of
unstored ancestors may be stored transitively); and when `store_all` succeeds, the
node and every direct cached-link source end up stored. -/
theorem claim_C3 (w : World) (u : Nat) (n : StoreNode) (uc : Bool)
    (hl : lookup_node w u = some n) (hstorable : n.storable = true)
    (hunstored : n.stored = false) :
    (∀ t, t ∈ n.incomingCache → node_stored w t.source = false →
      store w u uc = .error .modificationNotAllowed) ∧
    (∀ t, t ∈ n.incomingCache → node_stored w t.source = false →
      source_parents_stored w t.source = false →
      store_all w u uc = .error .modificationNotAllowed) ∧
    (∀ w', store_all w u uc = .ok w' →
      node_stored w' u = true ∧ ∀ t ∈ n.incomingCache, node_stored w' t.source = true) := by
  refine ⟨?_, ?_, ?_⟩
  · intro t ht hts
    have hpar : check_are_parents_stored w n = false := by
      cases hcc : check_are_parents_stored w n
      · rfl
      · have hall := List.all_eq_true.mp hcc t ht
        rw [hts] at hall
        exact absurd hall (by decide)
    unfold store
    rw [hl]
    simp [hstorable, hunstored, hpar]
  · intro t ht hts hsp
    have hall : (n.incomingCache.all (fun t => source_parents_stored w t.source)) = false := by
      cases hcc : n.incomingCache.all (fun t => source_parents_stored w t.source)
      · rfl
      · have hx := List.all_eq_true.mp hcc t ht
        rw [hsp] at hx
        exact absurd hx (by decide)
    unfold store_all
    rw [hl]
    simp [hunstored, hall]
  · intro w' hok
    unfold store_all at hok
    simp only [hl] at hok
    rw [if_neg (by rw [hunstored]; exact Bool.false_ne_true)] at hok
    by_cases hall : (!(n.incomingCache.all fun t => source_parents_stored w t.source)) = true
    · rw [if_pos hall] at hok
      exact Except.noConfusion hok
    · rw [if_neg hall] at hok
      cases hsin : store_input_nodes w u with
      | error e =>
        rw [hsin] at hok
        exact Except.noConfusion hok
      | ok w1 =>
        rw [hsin] at hok
        have hok' : store w1 u uc = .ok w' := hok
        constructor
        · exact store_marks_self _ _ _ _ hok'
        · intro t ht
          have hsrc : node_stored w1 t.source = true := by
            unfold store_input_nodes at hsin
            simp only [hl] at hsin
            rw [if_neg (by rw [hunstored]; exact Bool.false_ne_true)] at hsin
            exact store_sources_stores _ _ _ hsin t ht
          exact store_stored_mono _ _ _ _ hok' _ hsrc

/-- Witness for claim C3, following the two-level scenario of the spec: with the
chain A(0) ← B(1) ← C(2) all unstored, both `store` and `store_all` on C fail; after
A is stored, `store_all` on C succeeds and stores B and C, flushing both links. -/
theorem claim_C3_witness :
    store c3World 2 false = .error .modificationNotAllowed ∧
    store_all c3World 2 false = .error .modificationNotAllowed ∧
    (node_stored c3WorldStored 2 = true ∧
      ∀ t ∈ ({ plainNode with incomingCache := [⟨1, .input, "b"⟩] } : StoreNode).incomingCache,
        node_stored c3WorldStored t.source = true) := by
  have h := claim_C3 c3World 2 { plainNode with incomingCache := [⟨1, .input, "b"⟩] } false
    (by rfl) (by decide) (by decide)
  have hA := claim_C3 c3WorldA 2 { plainNode with incomingCache := [⟨1, .input, "b"⟩] } false
    (by rfl) (by decide) (by decide)
  exact ⟨h.1 ⟨1, .input, "b"⟩ (by decide) (by decide),
         h.2.1 ⟨1, .input, "b"⟩ (by decide) (by decide) (by decide),
         hA.2.2 c3WorldStored (by decide)⟩

theorem chainB_append (es : List DbLink) :
    ∀ (p : List Nat) (a b : Nat) (q : List Nat) (c : Nat),
    chainB es a p b = true → chainB es b q c = true → chainB es a (p ++ q) c = true := by
  intro p
  induction p with
  | nil =>
    intro a b q c hab hbc
    have hab' : a = b := by simpa [chainB] using hab
    subst hab'
    simpa using hbc
  | cons x p ih =>
    intro a b q c hab hbc
    simp only [chainB, Bool.and_eq_true] at hab
    obtain ⟨hstep, hrest⟩ := hab
    show chainB es a (x :: (p ++ q)) c = true
    simp only [chainB, Bool.and_eq_true]
    exact ⟨hstep, ih x b q c hrest hbc⟩

theorem mem_reach_set_self (es : List DbLink) :
    ∀ (k : Nat) (cur : List Nat) (a : Nat), a ∈ cur → a ∈ reach_set es k cur := by
  intro k
  induction k with
  | zero => intro cur a h; exact h
  | succ k ih =>
    intro cur a h
    exact ih (expand_frontier es cur) a (List.mem_append_left _ h)

theorem mem_expand_frontier (es : List DbLink) (cur : List Nat) (a x : Nat)
    (ha : a ∈ cur) (hstep : edge_step es a x = true) : x ∈ expand_frontier es cur := by
  unfold expand_frontier
  refine List.mem_append_right _ ?_
  unfold edge_step at hstep
  rw [List.any_eq_true] at hstep
  obtain ⟨e, he, hmatch⟩ := hstep
  rw [Bool.and_eq_true, Bool.and_eq_true] at hmatch
  obtain ⟨⟨hprov, hsrc⟩, htgt⟩ := hmatch
  refine List.mem_map.mpr ⟨e, List.mem_filter.mpr ⟨he, ?_⟩, by simpa using htgt⟩
  rw [Bool.and_eq_true]
  refine ⟨hprov, ?_⟩
  have he' : e.source = a := by simpa using hsrc
  rw [he']
  exact List.elem_iff.mpr ha

theorem mem_reach_set_of_chain (es : List DbLink) :
    ∀ (p : List Nat) (k : Nat) (cur : List Nat) (a b : Nat),
    chainB es a p b = true → a ∈ cur → p.length ≤ k → b ∈ reach_set es k cur := by
  intro p
  induction p with
  | nil =>
    intro k cur a b hab ha _
    have hab' : a = b := by simpa [chainB] using hab
    subst hab'
    exact mem_reach_set_self es k cur a ha
  | cons x p ih =>
    intro k cur a b hab ha hk
    cases k with
    | zero => exact absurd hk (by simp)
    | succ k =>
      simp only [chainB, Bool.and_eq_true] at hab
      obtain ⟨hstep, hrest⟩ := hab
      have hx : x ∈ expand_frontier es cur := mem_expand_frontier es cur a x ha hstep
      exact ih k (expand_frontier es cur) x b hrest hx (by simpa using hk)

theorem chain_of_mem_reach_set (es : List DbLink) :
    ∀ (k : Nat) (cur : List Nat) (b : Nat), b ∈ reach_set es k cur →
    ∃ a, a ∈ cur ∧ ∃ p, chainB es a p b = true := by
  intro k
  induction k with
  | zero =>
    intro cur b hb
    exact ⟨b, hb, [], by simp [chainB]⟩
  | succ k ih =>
    intro cur b hb
    obtain ⟨a, ha, p, hp⟩ := ih (expand_frontier es cur) b hb
    unfold expand_frontier at ha
    rcases List.mem_append.mp ha with hcur | hmap
    · exact ⟨a, hcur, p, hp⟩
    · obtain ⟨e, hef, het⟩ := List.mem_map.mp hmap
      obtain ⟨he, hcond⟩ := List.mem_filter.mp hef
      rw [Bool.and_eq_true] at hcond
      obtain ⟨hprov, hcontains⟩ := hcond
      refine ⟨e.source, List.elem_iff.mp hcontains, e.target :: p, ?_⟩
      simp only [chainB, Bool.and_eq_true]
      constructor
      · unfold edge_step
        rw [List.any_eq_true]
        exact ⟨e, he, by simp [hprov]⟩
      · rw [het]
        exact hp

theorem chain_elems_targets (es : List DbLink) :
    ∀ (p : List Nat) (a b : Nat), chainB es a p b = true →
    ∀ x ∈ p, x ∈ prov_targets es := by
  intro p
  induction p with
  | nil => intro a b _ x hx; exact absurd hx (List.not_mem_nil x)
  | cons y p ih =>
    intro a b hab x hx
    simp only [chainB, Bool.and_eq_true] at hab
    obtain ⟨hstep, hrest⟩ := hab
    rcases List.mem_cons.mp hx with rfl | hx'
    · unfold edge_step at hstep
      rw [List.any_eq_true] at hstep
      obtain ⟨e, he, hm⟩ := hstep
      rw [Bool.and_eq_true, Bool.and_eq_true] at hm
      obtain ⟨⟨hprov, _⟩, htgt⟩ := hm
      unfold prov_targets
      exact List.mem_map.mpr ⟨e, List.mem_filter.mpr ⟨he, hprov⟩, by simpa using htgt⟩
    · exact ih y b hrest x hx'

theorem chain_end_mem (es : List DbLink) :
    ∀ (p : List Nat) (x a b : Nat), chainB es a (x :: p) b = true → b ∈ x :: p := by
  intro p
  induction p with
  | nil =>
    intro x a b h
    simp only [chainB, Bool.and_eq_true] at h
    have hb : x = b := by simpa using h.2
    rw [hb]
    exact List.mem_singleton_self b
  | cons y p ih =>
    intro x a b h
    simp only [chainB, Bool.and_eq_true] at h
    have := ih y x b (by simp only [chainB, Bool.and_eq_true]; exact h.2)
    exact List.mem_cons_of_mem x this

theorem nodup_or_split (p : List Nat) :
    p.Nodup ∨ ∃ (q : List Nat) (x : Nat) (r s : List Nat), p = q ++ x :: (r ++ x :: s) := by
  induction p with
  | nil => left; exact List.nodup_nil
  | cons y p ih =>
    by_cases hy : y ∈ p
    · right
      obtain ⟨r, s, hrs⟩ := List.append_of_mem hy
      exact ⟨[], y, r, s, by rw [hrs]; rfl⟩
    · rcases ih with hnd | ⟨q, x, r, s, hsplit⟩
      · left; exact List.nodup_cons.mpr ⟨hy, hnd⟩
      · right; exact ⟨y :: q, x, r, s, by rw [hsplit]; rfl⟩

theorem chain_split (es : List DbLink) :
    ∀ (q : List Nat) (a x : Nat) (t : List Nat) (b : Nat),
    chainB es a (q ++ x :: t) b = true →
    chainB es a (q ++ [x]) x = true ∧ chainB es x t b = true := by
  intro q
  induction q with
  | nil =>
    intro a x t b h
    simp only [List.nil_append, chainB, Bool.and_eq_true] at h ⊢
    exact ⟨⟨h.1, by simp [chainB]⟩, h.2⟩
  | cons y q ih =>
    intro a x t b h
    simp only [List.cons_append, chainB, Bool.and_eq_true] at h
    obtain ⟨hstep, hrest⟩ := h
    obtain ⟨h1, h2⟩ := ih y x t b hrest
    refine ⟨?_, h2⟩
    show chainB es a (y :: (q ++ [x])) x = true
    simp only [chainB, Bool.and_eq_true]
    exact ⟨hstep, h1⟩

theorem chain_shorten (es : List DbLink) :
    ∀ (nn : Nat) (p : List Nat) (a b : Nat), p.length ≤ nn → chainB es a p b = true →
    ∃ q, q.length ≤ es.length ∧ chainB es a q b = true := by
  intro nn
  induction nn with
  | zero =>
    intro p a b hlen hab
    have hp : p = [] := List.length_eq_zero.mp (Nat.le_zero.mp hlen)
    subst hp
    exact ⟨[], by simp, hab⟩
  | succ nn ih =>
    intro p a b hlen hab
    by_cases hple : p.length ≤ es.length
    · exact ⟨p, hple, hab⟩
    · rcases nodup_or_split p with hnd | ⟨qq, x, r, s, hsplit⟩
      · exfalso
        have hsub := chain_elems_targets es p a b hab
        have h1 : p.length = p.toFinset.card := (List.toFinset_card_of_nodup hnd).symm
        have h2 : p.toFinset ⊆ (prov_targets es).toFinset := by
          intro y hy
          rw [List.mem_toFinset] at hy ⊢
          exact hsub y hy
        have h3 := Finset.card_le_card h2
        have h4 := List.toFinset_card_le (prov_targets es)
        have h5 : (prov_targets es).length ≤ es.length := by
          unfold prov_targets
          rw [List.length_map]
          exact List.length_filter_le _ _
        omega
      · subst hsplit
        obtain ⟨h1, h2⟩ := chain_split es qq a x (r ++ x :: s) b hab
        obtain ⟨h3, h4⟩ := chain_split es r x x s b h2
        have hc : chainB es a ((qq ++ [x]) ++ s) b = true :=
          chainB_append es (qq ++ [x]) a x s b h1 h4
        refine ih ((qq ++ [x]) ++ s) a b ?_ hc
        simp only [List.length_append, List.length_cons, List.length_nil] at hlen ⊢
        omega

theorem chain_mono (es es' : List DbLink)
    (h : ∀ a b, edge_step es' a b = true → edge_step es a b = true) :
    ∀ (p : List Nat) (a b : Nat), chainB es' a p b = true → chainB es a p b = true := by
  intro p
  induction p with
  | nil => intro a b hx; exact hx
  | cons x p ih =>
    intro a b hx
    simp only [chainB, Bool.and_eq_true] at hx ⊢
    exact ⟨h a x hx.1, ih x b hx.2⟩

theorem mem_succ_targets (es : List DbLink) (u x : Nat)
    (hstep : edge_step es u x = true) : x ∈ succ_targets es u := by
  unfold edge_step at hstep
  rw [List.any_eq_true] at hstep
  obtain ⟨e, he, hm⟩ := hstep
  rw [Bool.and_eq_true, Bool.and_eq_true] at hm
  obtain ⟨⟨hprov, hsrc⟩, htgt⟩ := hm
  unfold succ_targets
  refine List.mem_map.mpr ⟨e, List.mem_filter.mpr ⟨he, ?_⟩, by simpa using htgt⟩
  rw [Bool.and_eq_true]
  exact ⟨hprov, hsrc⟩

theorem edge_step_of_mem_succ (es : List DbLink) (u x : Nat)
    (hx : x ∈ succ_targets es u) : edge_step es u x = true := by
  unfold succ_targets at hx
  obtain ⟨e, hef, het⟩ := List.mem_map.mp hx
  obtain ⟨he, hcond⟩ := List.mem_filter.mp hef
  rw [Bool.and_eq_true] at hcond
  unfold edge_step
  rw [List.any_eq_true]
  refine ⟨e, he, ?_⟩
  rw [Bool.and_eq_true, Bool.and_eq_true]
  exact ⟨⟨hcond.1, hcond.2⟩, by simp [het]⟩

theorem acyclicB_of_acyclic (es : List DbLink) (h : Acyclic es) : AcyclicB es = true := by
  unfold AcyclicB
  rw [List.all_eq_true]
  intro u _
  rw [Bool.not_eq_true']
  cases hcb : (reach_set es (es.length + 1) (succ_targets es u)).contains u
  · rfl
  · exfalso
    have hmem : u ∈ reach_set es (es.length + 1) (succ_targets es u) :=
      List.elem_iff.mp hcb
    obtain ⟨a, ha, p, hp⟩ := chain_of_mem_reach_set es _ _ u hmem
    have hstep : edge_step es u a = true := edge_step_of_mem_succ es u a ha
    have hcycle : chainB es u (a :: p) u = true := by
      simp only [chainB, Bool.and_eq_true]
      exact ⟨hstep, hp⟩
    rw [h u a p] at hcycle
    exact Bool.noConfusion hcycle

theorem acyclic_of_acyclicB (es : List DbLink) (h : AcyclicB es = true) : Acyclic es := by
  intro u x p
  cases hcb : chainB es u (x :: p) u
  · rfl
  · exfalso
    have hu : u ∈ prov_targets es :=
      chain_elems_targets es (x :: p) u u hcb u (chain_end_mem es p x u u hcb)
    have hall := List.all_eq_true.mp h u hu
    rw [Bool.not_eq_true'] at hall
    simp only [chainB, Bool.and_eq_true] at hcb
    obtain ⟨hstep, hrest⟩ := hcb
    obtain ⟨q, hqlen, hqchain⟩ := chain_shorten es p.length p x u (le_refl _) hrest
    have hmem : u ∈ reach_set es (es.length + 1) (succ_targets es u) :=
      mem_reach_set_of_chain es q (es.length + 1) (succ_targets es u) x u hqchain
        (mem_succ_targets es u x hstep) (by omega)
    have : (reach_set es (es.length + 1) (succ_targets es u)).contains u = true :=
      List.elem_iff.mpr hmem
    rw [hall] at this
    exact Bool.noConfusion this

theorem chain_right_decomp (es es' : List DbLink) (e : DbLink)
    (hstep : ∀ a b, edge_step es' a b = true →
      edge_step es a b = true ∨ (e.source = a ∧ e.target = b)) :
    ∀ (p : List Nat) (a b : Nat), chainB es' a p b = true →
    chainB es a p b = true ∨ ∃ q, chainB es e.target q b = true := by
  intro p
  induction p with
  | nil => intro a b h; exact Or.inl h
  | cons x p ih =>
    intro a b h
    simp only [chainB, Bool.and_eq_true] at h
    obtain ⟨hs, hr⟩ := h
    rcases hstep a x hs with hes | ⟨hsrc, htgt⟩
    · rcases ih x b hr with hl | ⟨q, hq⟩
      · left
        simp only [chainB, Bool.and_eq_true]
        exact ⟨hes, hl⟩
      · exact Or.inr ⟨q, hq⟩
    · rcases ih x b hr with hl | ⟨q, hq⟩
      · refine Or.inr ⟨p, ?_⟩
        rw [htgt]
        exact hl
      · exact Or.inr ⟨q, hq⟩

theorem chain_left_decomp (es es' : List DbLink) (e : DbLink)
    (hstep : ∀ a b, edge_step es' a b = true →
      edge_step es a b = true ∨ (e.source = a ∧ e.target = b)) :
    ∀ (p : List Nat) (a b : Nat), chainB es' a p b = true →
    chainB es a p b = true ∨ ∃ q, chainB es a q e.source = true := by
  intro p
  induction p with
  | nil => intro a b h; exact Or.inl h
  | cons x p ih =>
    intro a b h
    simp only [chainB, Bool.and_eq_true] at h
    obtain ⟨hs, hr⟩ := h
    rcases hstep a x hs with hes | ⟨hsrc, htgt⟩
    · rcases ih x b hr with hl | ⟨q, hq⟩
      · left
        simp only [chainB, Bool.and_eq_true]
        exact ⟨hes, hl⟩
      · refine Or.inr ⟨x :: q, ?_⟩
        simp only [chainB, Bool.and_eq_true]
        exact ⟨hes, hq⟩
    · refine Or.inr ⟨[], ?_⟩
      rw [← hsrc]
      simp [chainB]

theorem acyclicB_insert (es es' : List DbLink) (e : DbLink)
    (hfwd : ∀ a b, edge_step es' a b = true →
      edge_step es a b = true ∨
        (e.linkType.isProvenance = true ∧ e.source = a ∧ e.target = b))
    (hacy : AcyclicB es = true)
    (hreach : e.linkType.isProvenance = true → reachableB es e.target e.source = false) :
    AcyclicB es' = true := by
  have hacyP : Acyclic es := acyclic_of_acyclicB es hacy
  refine acyclicB_of_acyclic es' ?_
  cases hprov : e.linkType.isProvenance with
  | false =>
    have hmono : ∀ a b, edge_step es' a b = true → edge_step es a b = true := by
      intro a b hab
      rcases hfwd a b hab with h1 | ⟨hp, _, _⟩
      · exact h1
      · rw [hprov] at hp
        exact absurd hp (by decide)
    intro u x p
    cases hc : chainB es' u (x :: p) u
    · rfl
    · exfalso
      have := chain_mono es es' hmono (x :: p) u u hc
      rw [hacyP u x p] at this
      exact Bool.noConfusion this
  | true =>
    have hre : reachableB es e.target e.source = false := hreach hprov
    have hstep' : ∀ a b, edge_step es' a b = true →
        edge_step es a b = true ∨ (e.source = a ∧ e.target = b) := by
      intro a b hab
      rcases hfwd a b hab with h1 | ⟨_, h2, h3⟩
      · exact Or.inl h1
      · exact Or.inr ⟨h2, h3⟩
    intro u x p
    cases hc : chainB es' u (x :: p) u
    · rfl
    · exfalso
      rcases chain_right_decomp es es' e hstep' (x :: p) u u hc with hL | ⟨q1, hq1⟩
      · rw [hacyP u x p] at hL
        exact Bool.noConfusion hL
      · rcases chain_left_decomp es es' e hstep' (x :: p) u u hc with hL2 | ⟨q2, hq2⟩
        · rw [hacyP u x p] at hL2
          exact Bool.noConfusion hL2
        · have hcomp : chainB es e.target (q1 ++ q2) e.source = true :=
            chainB_append es q1 e.target u q2 e.source hq1 hq2
          obtain ⟨q, hqlen, hqchain⟩ :=
            chain_shorten es (q1 ++ q2).length (q1 ++ q2) e.target e.source (le_refl _) hcomp
          have hmem : e.source ∈ reach_set es (es.length + 1) [e.target] :=
            mem_reach_set_of_chain es q (es.length + 1) [e.target] e.target e.source
              hqchain (by simp) (by omega)
          have hcontra : reachableB es e.target e.source = true := by
            unfold reachableB
            exact List.elem_iff.mpr hmem
          rw [hre] at hcontra
          exact Bool.noConfusion hcontra

theorem cache_edges_cons (q : Nat × StoreNode) (tl : List (Nat × StoreNode)) :
    cache_edges (q :: tl) = q.2.incomingCache.map
      (fun tr => DbLink.mk tr.source q.1 tr.linkType tr.linkLabel) ++ cache_edges tl := by
  simp [cache_edges]

theorem mem_cache_edges_map (l : List (Nat × StoreNode)) (target : Nat) (t : LinkTriple)
    (x : DbLink) :
    x ∈ cache_edges (node_list_map l target
        (fun n => { n with incomingCache := n.incomingCache ++ [t] }))
      ↔ (x ∈ cache_edges l ∨
          ((node_list_lookup l target).isSome ∧
            x = ⟨t.source, target, t.linkType, t.linkLabel⟩)) := by
  induction l with
  | nil => simp [cache_edges, node_list_map, node_list_lookup]
  | cons p tl ih =>
    obtain ⟨k, m⟩ := p
    show x ∈ cache_edges ((if k = target then (k, { m with incomingCache := m.incomingCache ++ [t] }) else (k, m)) :: node_list_map tl target _) ↔ _
    by_cases hk : k = target
    · subst hk
      rw [if_pos rfl, cache_edges_cons, cache_edges_cons]
      show x ∈ (m.incomingCache ++ [t]).map _ ++ cache_edges (node_list_map tl k _) ↔ _
      rw [List.map_append, List.mem_append, List.mem_append, List.mem_append]
      have hsome : (node_list_lookup ((k, m) :: tl) k).isSome = true := by
        show (if k = k then some m else node_list_lookup tl k).isSome = true
        rw [if_pos rfl]
        rfl
      rw [hsome]
      constructor
      · rintro ((h1 | h2) | h3)
        · exact Or.inl (Or.inl h1)
        · right
          refine ⟨rfl, ?_⟩
          simpa using h2
        · rcases ih.mp h3 with h4 | ⟨_, h5⟩
          · exact Or.inl (Or.inr h4)
          · exact Or.inr ⟨rfl, h5⟩
      · rintro ((h1 | h2) | ⟨_, h3⟩)
        · exact Or.inl (Or.inl h1)
        · exact Or.inr (ih.mpr (Or.inl h2))
        · left
          right
          simp [h3]
    · rw [if_neg hk, cache_edges_cons, cache_edges_cons]
      rw [List.mem_append, List.mem_append]
      have hsame : (node_list_lookup ((k, m) :: tl) target).isSome
          = (node_list_lookup tl target).isSome := by
        show (if k = target then some m else node_list_lookup tl target).isSome = _
        rw [if_neg hk]
      rw [hsame]
      constructor
      · rintro (h1 | h2)
        · exact Or.inl (Or.inl h1)
        · rcases ih.mp h2 with h3 | h4
          · exact Or.inl (Or.inr h3)
          · exact Or.inr h4
      · rintro ((h1 | h2) | h3)
        · exact Or.inl h1
        · exact Or.inr (ih.mpr (Or.inl h2))
        · exact Or.inr (ih.mpr (Or.inr h3))

/-- Claim C5: on the stored chain A(0) → B(1) → C(2) → D(3) of CREATE links,
proposing the link D → A is rejected with the ValueError-class cycle error while the
three chain links stay exactly as they were (the rejected call produces no new
world); and in general, for every `add_incoming` call that succeeds on any world,
the provenance-restricted link graph stays acyclic. -/
theorem claim_C5 :
    (add_incoming chainWorld 0 3 .create "loop" = .error .valueError ∧
      all_edges chainWorld =
        [⟨0, 1, .create, "c1"⟩, ⟨1, 2, .create, "c2"⟩, ⟨2, 3, .create, "c3"⟩]) ∧
    (∀ (w : World) (target source : Nat) (lt : LinkType) (lbl : String) (w' : World),
      add_incoming w target source lt lbl = .ok w' →
      AcyclicB (all_edges w) = true → AcyclicB (all_edges w') = true) := by
  constructor
  · exact ⟨by decide, by decide⟩
  · intro w target source lt lbl w' hok hacy
    unfold add_incoming at hok
    cases ht : lookup_node w target with
    | none => simp only [ht] at hok; exact Except.noConfusion hok
    | some tn =>
      cases hs : lookup_node w source with
      | none => simp only [ht, hs] at hok; exact Except.noConfusion hok
      | some sn =>
        simp only [ht, hs] at hok
        split at hok
        · exact Except.noConfusion hok
        · rename_i hcyc
          have hreach : lt.isProvenance = true →
              reachableB (all_edges w) target source = false := by
            intro hp
            cases hrb : reachableB (all_edges w) target source
            · rfl
            · exact absurd (by rw [Bool.and_eq_true]; exact ⟨hp, hrb⟩) hcyc
          split at hok
          · split at hok
            · exact Except.noConfusion hok
            · injection hok with h'
              subst h'
              refine acyclicB_insert (all_edges w) _ ⟨source, target, lt, lbl⟩ ?_ hacy hreach
              intro a b hab
              unfold edge_step at hab
              rw [List.any_eq_true] at hab
              obtain ⟨x, hx, hmx⟩ := hab
              have hx0 : x ∈ (w.dbLinks ++ [(⟨source, target, lt, lbl⟩ : DbLink)])
                  ++ cache_edges w.nodes := hx
              have hx' : x ∈ w.dbLinks ++ cache_edges w.nodes ∨
                  x = (⟨source, target, lt, lbl⟩ : DbLink) := by
                rcases List.mem_append.mp hx0 with h1 | h2
                · rcases List.mem_append.mp h1 with h3 | h4
                  · exact Or.inl (List.mem_append_left _ h3)
                  · exact Or.inr (by simpa using h4)
                · exact Or.inl (List.mem_append_right _ h2)
              rcases hx' with hmem | rfl
              · left
                unfold edge_step
                rw [List.any_eq_true]
                exact ⟨x, hmem, hmx⟩
              · right
                rw [Bool.and_eq_true, Bool.and_eq_true] at hmx
                obtain ⟨⟨hp, hsa⟩, htb⟩ := hmx
                exact ⟨hp, by simpa using hsa, by simpa using htb⟩
          · split at hok
            · exact Except.noConfusion hok
            · injection hok with h'
              subst h'
              refine acyclicB_insert (all_edges w) _ ⟨source, target, lt, lbl⟩ ?_ hacy hreach
              intro a b hab
              unfold edge_step at hab
              rw [List.any_eq_true] at hab
              obtain ⟨x, hx, hmx⟩ := hab
              have hx0 : x ∈ w.dbLinks ++ cache_edges (node_list_map w.nodes target
                  (fun n => { n with incomingCache :=
                    n.incomingCache ++ [(⟨source, lt, lbl⟩ : LinkTriple)] })) := hx
              rcases List.mem_append.mp hx0 with h1 | h2
              · left
                unfold edge_step
                rw [List.any_eq_true]
                exact ⟨x, List.mem_append_left _ h1, hmx⟩
              · rcases (mem_cache_edges_map w.nodes target ⟨source, lt, lbl⟩ x).mp h2
                  with h3 | ⟨_, rfl⟩
                · left
                  unfold edge_step
                  rw [List.any_eq_true]
                  exact ⟨x, List.mem_append_right _ h3, hmx⟩
                · right
                  rw [Bool.and_eq_true, Bool.and_eq_true] at hmx
                  obtain ⟨⟨hp, hsa⟩, htb⟩ := hmx
                  exact ⟨hp, by simpa using hsa, by simpa using htb⟩

/-- Witness for claim C5: the general acyclicity preservation applied to the concrete
successful call adding the non-cycle-closing CREATE link A(0) → D(3) onto the stored
chain, whose result world is `chainWorldExt`. -/
theorem claim_C5_witness : AcyclicB (all_edges chainWorldExt) = true :=
  claim_C5.2 chainWorld 3 0 .create "extra" chainWorldExt (by decide) (by decide)

/-- Claim C9: on an unstored node, appending to an absent attribute key initialises
it to a list holding exactly the (cleaned copy of the) appended value; appending to
a key whose current value is not list-like raises `AttributeError`; and after a
set with `clean=True` followed by any sequence of appends, the externally held list
object passed as the base value is never mutated — the cache works on a copy. -/
theorem claim_C9 :
    (∀ (fuel : Nat) (h : Heap) (n : HNode) (key : String) (v : PyVal) (h' : Heap)
        (n' : HNode),
      validate_attribute_key key = true →
      lookup_assoc n.attrsCache key = none →
      append_to_attr fuel h n key v true = .ok h' n' →
      ∃ r v' h1, clean_value_heap fuel h v = some (h1, v') ∧
        lookup_assoc n'.attrsCache key = some (.vref r) ∧
        h'.cells.get? r = some [v']) ∧
    (∀ (fuel : Nat) (h : Heap) (n : HNode) (key : String) (v : PyVal) (m : Int),
      validate_attribute_key key = true →
      lookup_assoc n.attrsCache key = some (.vint m) →
      append_to_attr fuel h n key v true = .err .attributeError) ∧
    (∀ (fuel fuel2 : Nat) (h : Heap) (n : HNode) (key : String) (r : Nat)
        (ext : List PyVal) (h1 : Heap) (n1 : HNode) (h2 : Heap) (n2 : HNode)
        (vs : List PyVal),
      h.cells.get? r = some ext →
      set_attr_heap fuel h n key (.vref r) true = .ok h1 n1 →
      append_many fuel2 h1 n1 key vs = .ok h2 n2 →
      h2.cells.get? r = some ext) := by
  refine ⟨?_, ?_, ?_⟩
  · intro fuel h n key v h' n' hval hla hok
    unfold append_to_attr at hok
    rw [if_neg (by rw [hval]; exact Bool.false_ne_true)] at hok
    simp only [hla] at hok
    cases hcv : clean_value_heap fuel h v with
    | none =>
      simp only [hcv, if_true] at hok
      exact HRes.noConfusion hok
    | some p =>
      obtain ⟨h1, v'⟩ := p
      simp only [hcv, if_true] at hok
      injection hok with hh hn
      subst hh
      subst hn
      refine ⟨h1.cells.length, v', h1, rfl, lookup_update_assoc_self _ _ _, ?_⟩
      show (h1.cells ++ [[v']]).get? h1.cells.length = some [v']
      exact List.get?_concat_length _ _
  · intro fuel h n key v m hval hla
    unfold append_to_attr
    rw [if_neg (by rw [hval]; exact Bool.false_ne_true)]
    rw [hla]
  · intro fuel fuel2 h n key r ext h1 n1 h2 n2 vs hr hset happ
    have hrlen : r < h.cells.length := by
      rcases List.get?_eq_some.mp hr with ⟨hlt, _⟩
      exact hlt
    unfold set_attr_heap at hset
    split at hset
    · exact HRes.noConfusion hset
    · rw [if_pos rfl] at hset
      cases hcv : clean_value_heap fuel h (.vref r) with
      | none =>
        simp only [hcv] at hset
        exact HRes.noConfusion hset
      | some p =>
        obtain ⟨hc, v'⟩ := p
        simp only [hcv] at hset
        injection hset with hh hn
        subst hh
        subst hn
        obtain ⟨r', hv', hge⟩ := clean_value_heap_vref_fresh fuel h r hc v' hcv
        obtain ⟨ext1, he1⟩ := clean_value_heap_extends fuel h (.vref r) hc v' hcv
        have hr1 : hc.cells.get? r = some ext := by
          rw [he1, List.get?_append hrlen]
          exact hr
        have hk1 : ∀ r2, lookup_assoc (update_assoc n.attrsCache key v') key
            = some (.vref r2) → r2 ≠ r := by
          intro r2 hr2
          rw [lookup_update_assoc_self, hv'] at hr2
          injection hr2 with hv2
          injection hv2 with hv3
          omega
        exact append_many_frame vs fuel2 hc ⟨update_assoc n.attrsCache key v'⟩ key r ext
          h2 n2 hr1 hk1 happ

/-- Witness for claim C9: the scenario of `test_append_no_side_effects` — the
external list `[1, 2, 3]` (heap cell 0) is set as an attribute and `4` is appended
through the node; the external cell still holds `[1, 2, 3]`. -/
theorem claim_C9_witness :
    (⟨[[.vint 1, .vint 2, .vint 3], [.vint 1, .vint 2, .vint 3, .vint 4]]⟩ : Heap).cells.get? 0
      = some [.vint 1, .vint 2, .vint 3] :=
  claim_C9.2.2 10 10 ⟨[[.vint 1, .vint 2, .vint 3]]⟩ ⟨[]⟩ "list" 0
    [.vint 1, .vint 2, .vint 3]
    ⟨[[.vint 1, .vint 2, .vint 3], [.vint 1, .vint 2, .vint 3]]⟩ ⟨[("list", .vref 1)]⟩
    ⟨[[.vint 1, .vint 2, .vint 3], [.vint 1, .vint 2, .vint 3, .vint 4]]⟩
    ⟨[("list", .vref 1)]⟩ [.vint 4] (by decide) (by decide) (by decide)

/-- Counterexample to claim C1 as stated: after a successful `store`, a second call
to `store` does not raise `ModificationNotAllowed` — the whole storing block is
guarded by `if self._to_be_stored`, so the call is a silent no-op returning the node
unchanged (and, as the unchanged record list shows, no duplicate durable record
appears). -/
theorem claim_C1_counterexample :
    store c1World 0 false = .ok c1StoredWorld ∧
    store c1StoredWorld 0 false = .ok c1StoredWorld ∧
    c1StoredWorld.dbRecords = [0] := by
  decide

/-- Claim C1 (amended): calling `store()` on an already stored node is a silent
no-op that returns the state unchanged, so no duplicate durable record is created;
it is `store_all()` that raises `ModificationNotAllowed` on an already stored
node. -/
theorem claim_C1_amended (w : World) (u : Nat) (n : StoreNode) (uc : Bool)
    (hl : lookup_node w u = some n) (hstorable : n.storable = true)
    (hstored : n.stored = true) :
    store w u uc = .ok w ∧ store_all w u uc = .error .modificationNotAllowed := by
  constructor
  · unfold store
    rw [hl]
    simp [hstorable, hstored]
  · unfold store_all
    rw [hl]
    simp [hstored]

/-- Witness for the amended claim C1 at the concrete stored world. -/
theorem claim_C1_witness :
    store c1StoredWorld 0 false = .ok c1StoredWorld ∧
    store_all c1StoredWorld 0 false = .error .modificationNotAllowed :=
  claim_C1_amended c1StoredWorld 0 { plainNode with stored := true } false
    (by rfl) (by decide) (by decide)

/-- Counterexample to claim C2 as stated: the resolved equivalent node 0 has a
RETURN-type outgoing link, and `store` then fails with `ValueError` (raised in
`_store_from_cache` and propagated by `store`) instead of falling back to a normal
persistence that succeeds. -/
theorem claim_C2_counterexample :
    get_same_node c2World 1 = some 0 ∧
    (outgoing_links c2World 0 .ret).isEmpty = false ∧
    store c2World 1 true = .error .valueError := by
  decide

/-- Claim C2 (amended): whenever the resolved equivalent cache node has at least one
RETURN-type outgoing link, `store` with caching enabled raises `ValueError`; there
is no fallback to a normal store. -/
theorem claim_C2_amended (w : World) (u c : Nat) (n cn : StoreNode)
    (hl : lookup_node w u = some n) (hstorable : n.storable = true)
    (hunstored : n.stored = false) (hpar : check_are_parents_stored w n = true)
    (hsame : get_same_node w u = some c) (hcn : lookup_node w c = some cn)
    (hret : (outgoing_links w c .ret).isEmpty = false) :
    store w u true = .error .valueError := by
  have hretRaw : (w.dbLinks.filter
      (fun l => l.source == c && l.linkType == LinkType.ret)).isEmpty = false := hret
  unfold store
  rw [hl]
  simp [hstorable, hunstored, hpar, hsame, store_from_cache, hcn, outgoing_links,
    map_node, hretRaw]

/-- Witness for the amended claim C2 at the concrete cache-reuse world. -/
theorem claim_C2_witness :
    store c2World 1 true = .error .valueError :=
  claim_C2_amended c2World 1 0 { plainNode with nodeHash := some 7 }
    { plainNode with stored := true, nodeHash := some 7 }
    (by rfl) (by decide) (by decide) (by decide) (by decide) (by rfl) (by decide)

/-- Counterexample to claim C6 as stated: a link triple cached on an already stored
target is never flushed, so once its source is stored too, `add_incoming` accepts
the very same triple again on the durable path — the combined cache plus durable
set then holds a duplicate, which the defensive check of `get_incoming` reports as
`InternalError`. -/
theorem claim_C6_counterexample :
    store c6World 0 false = .ok c6W1 ∧
    add_incoming c6W1 0 1 .input "l" = .ok c6W2 ∧
    store c6W2 1 false = .ok c6W3 ∧
    (match lookup_node c6W3 0 with
      | some n => n.incomingCache.contains ⟨1, .input, "l"⟩
      | none => false) = true ∧
    add_incoming c6W3 0 1 .input "l" = .ok c6W4 ∧
    c6W4.dbLinks.contains ⟨1, 0, .input, "l"⟩ = true ∧
    (match lookup_node c6W4 0 with
      | some n => n.incomingCache.contains ⟨1, .input, "l"⟩
      | none => false) = true ∧
    get_incoming c6W4 0 = .error .internalError := by
  decide

/-- Claim C6 (amended): duplicate incoming links are rejected per storage area: for
a proposed link that passes cycle validation, an identical triple already in the
target's cache (endpoints not both stored) and a durable link with the same source
and label onto the same target (endpoints both stored) each fail with
`UniquenessError`, leaving the existing links unchanged. The two guards do not see
each other's area, so the combined set can come to hold a duplicate (see the
counterexample). -/
theorem claim_C6_amended (w : World) (target source : Nat) (lt : LinkType)
    (lbl : String) (tn sn : StoreNode)
    (ht : lookup_node w target = some tn) (hs : lookup_node w source = some sn)
    (hcyc : (lt.isProvenance && reachableB (all_edges w) target source) = false) :
    ((tn.stored && sn.stored) = false →
      tn.incomingCache.contains ⟨source, lt, lbl⟩ = true →
      add_incoming w target source lt lbl = .error .uniquenessError) ∧
    ((tn.stored && sn.stored) = true →
      w.dbLinks.any
        (fun l => l.target == target && l.source == source && l.linkLabel == lbl) = true →
      add_incoming w target source lt lbl = .error .uniquenessError) := by
  unfold add_incoming
  rw [ht, hs]
  constructor
  · intro hb hdup
    have hdup' : (⟨source, lt, lbl⟩ : LinkTriple) ∈ tn.incomingCache := by
      simpa using hdup
    simp [hcyc, hb, hdup']
  · intro hb hdup
    simp [hcyc, hb, hdup]

/-- Witness for the amended claim C6: the duplicate cache triple is rejected on the
cache path of the concrete world. -/
theorem claim_C6_witness :
    add_incoming c6W2 0 1 .input "l" = .error .uniquenessError :=
  (claim_C6_amended c6W2 0 1 .input "l"
    { plainNode with stored := true, incomingCache := [⟨1, .input, "l"⟩] } plainNode
    (by rfl) (by rfl) (by decide)).1 (by decide) (by decide)

end Aiida
